import Mathlib

/-!
Verification development for the `codeql-bundle` pack-composition tool.

The Python implementation (in `codeql_bundle/helpers/bundle.py` and
`codeql_bundle/helpers/codeql.py`) is shallowly embedded here:

* filesystem paths are lists of path components (`Path`);
* file contents are lists of logical lines (reading a file yields its lines,
  writing a list of lines yields a file with exactly those lines; the
  implementation's extra newline appended to every element by the final
  `writelines` in `bundle_stdlib_pack` only interleaves empty lines, which no
  property below depends on);
* YAML manifest dictionaries are insertion-ordered association lists with
  Python `dict` assignment semantics (`dictSet`);
* the mutable Python object graph of `add_packs` is a store mapping numeric
  node ids to pack records, so that in-place mutation of a shared
  `dependencies` list is explicit store update;
* unbounded recursion over that object graph is given explicit fuel; the
  claims quantify over successful (fuel-sufficient) runs;
* `graphlib.TopologicalSorter` is modelled node-for-node: `add` accumulates
  predecessor counts and successor lists, `static_order` repeatedly emits the
  ready group in insertion order and performs `done` on each member.
-/

namespace CodeQLBundle

/-- Filesystem paths, as lists of components (the parts of a `pathlib.Path`). -/
abbrev Path := List String

/-- Decidable path-prefix test: `p` is a prefix of (an ancestor-or-self of) `q`.
Mirrors `pathlib.PurePath.is_relative_to(p)` for component lists. -/
def pathLeadsTo : Path → Path → Bool
  | [], _ => true
  | _, [] => false
  | a :: p, b :: q => a == b && pathLeadsTo p q

/-- Python `str.split(sep)` for a one-character separator, at the character
level (executable and kernel-reducible, unlike core `String.splitOn`). -/
def splitCharsAux (sep : Char) : List Char → List Char → List (List Char)
  | [], acc => [acc.reverse]
  | x :: xs, acc =>
    if x == sep then acc.reverse :: splitCharsAux sep xs []
    else splitCharsAux sep xs (x :: acc)

/-- Python `str.split(sep)` for a one-character separator. -/
def splitOnChar (sep : Char) (s : String) : List String :=
  (splitCharsAux sep s.data []).map (fun l => ⟨l⟩)

/-- Python `str.replace(a, b)` for one-character arguments. -/
def replaceChar (a b : Char) (s : String) : String :=
  ⟨s.data.map (fun c => if c == a then b else c)⟩

/-- Character-list prefix test. -/
def charsLead : List Char → List Char → Bool
  | [], _ => true
  | _, [] => false
  | a :: as, b :: bs => a == b && charsLead as bs

/-- Python `str.startswith`. -/
def strStartsWith (s pre : String) : Bool :=
  charsLead pre.data s.data

/-- Python `str.endswith`. -/
def strEndsWith (s suf : String) : Bool :=
  charsLead suf.data.reverse s.data.reverse

/-- Lexicographic string comparison (Python `<` on strings). -/
def charsLt : List Char → List Char → Bool
  | [], [] => false
  | [], _ :: _ => true
  | _ :: _, [] => false
  | a :: as, b :: bs =>
    if a == b then charsLt as bs else decide (a < b)

/-- Python `<` on strings. -/
def strLt (a b : String) : Bool :=
  charsLt a.data b.data

/-- Semantic versions, as used by the `semantic_version` library: a
major/minor/patch triple. -/
structure Version where
  major : Nat
  minor : Nat
  patch : Nat
deriving DecidableEq, Repr

/-- String form of a version, as produced by Python `str(version)`. -/
def Version.toStr (v : Version) : String :=
  s!"{v.major}.{v.minor}.{v.patch}"

/-- Total order used for `npm`-style matching of caret ranges. -/
def Version.le (a b : Version) : Bool :=
  a.major < b.major ||
    (a.major == b.major &&
      (a.minor < b.minor || (a.minor == b.minor && a.patch ≤ b.patch)))

/-- Modelled from the external `semantic_version.NpmSpec` class (only its
`match` method is used by the source, in `build_pack_resolver`): a syntactic
constraint with decidable matching.  `caret v` is the npm range `^v`, `exact v`
the range `=v`, `wildcard` the range `*`. -/
inductive Constraint where
  | exact (v : Version)
  | caret (v : Version)
  | wildcard
deriving DecidableEq, Repr

/-- Constraint satisfaction, `NpmSpec.match`. -/
def Constraint.matches : Constraint → Version → Bool
  | .exact v, w => v == w
  | .caret v, w => Version.le v w && w.major == v.major
  | .wildcard, _ => true

/-- `CodeQLPackConfig` (`helpers/codeql.py`): the parsed `qlpack.yml`
manifest.  Python's insertion-ordered `dependencies` dict is an ordered
association list. -/
structure CodeQLPackConfig where
  library : Bool := false
  name : String
  version : Version := ⟨0, 0, 0⟩
  dependencies : List (String × Constraint) := []
  extractor : Option String := none
deriving DecidableEq, Repr

/-- `CodeQLPackConfig.get_scope`: the part of the name before `/`, if any. -/
def CodeQLPackConfig.get_scope (c : CodeQLPackConfig) : Option String :=
  if (splitOnChar '/' c.name).length > 1 then (splitOnChar '/' c.name).head?
  else none

/-- `CodeQLPackConfig.get_pack_name`: the part after `/`, or the whole name. -/
def CodeQLPackConfig.get_pack_name (c : CodeQLPackConfig) : String :=
  match splitOnChar '/' c.name with
  | _ :: second :: _ => second
  | _ => c.name

/-- `CodeQLPack` (`helpers/codeql.py`): a manifest bound to the path of its
`qlpack.yml` file. -/
structure CodeQLPack where
  path : Path
  config : CodeQLPackConfig
deriving DecidableEq, Repr

/-- `CodeQLPackKind` (`helpers/bundle.py`). -/
inductive CodeQLPackKind where
  | QUERY_PACK
  | LIBRARY_PACK
  | CUSTOMIZATION_PACK
deriving DecidableEq, Repr

/-- Python `Path.__truediv__` with a string operand: the string is split on
`/` and each piece becomes a component. -/
def pathDiv (p : Path) (s : String) : Path :=
  p ++ splitOnChar '/' s

/-- Parent directory of a manifest path (`pack.path.parent`). -/
def pathParent (p : Path) : Path :=
  p.dropLast

/-- A filesystem oracle: which paths exist. -/
abbrev FsExists := Path → Bool

/-- `get_pack_kind` (`helpers/bundle.py`, `build_pack_resolver`): QUERY unless
the manifest sets `library`; then CUSTOMIZATION exactly when
`<manifest-parent>/<name with - replaced by _>/Customizations.qll` exists
(the `/` in a scoped name acts as a path separator), and LIBRARY otherwise. -/
def get_pack_kind (fs : FsExists) (pack : CodeQLPack) : CodeQLPackKind :=
  if pack.config.library then
    if fs (pathDiv (pathDiv (pathParent pack.path)
        (replaceChar '-' '_' pack.config.name)) "Customizations.qll") then
      CodeQLPackKind.CUSTOMIZATION_PACK
    else
      CodeQLPackKind.LIBRARY_PACK
  else
    CodeQLPackKind.QUERY_PACK

/-- `ResolvedCodeQLPack` (`helpers/bundle.py`): a pack together with its
classified kind and its resolved dependency edges. -/
inductive ResolvedPack where
  | mk (path : Path) (config : CodeQLPackConfig) (kind : CodeQLPackKind)
      (dependencies : List ResolvedPack)

def ResolvedPack.path : ResolvedPack → Path
  | .mk p _ _ _ => p

def ResolvedPack.config : ResolvedPack → CodeQLPackConfig
  | .mk _ c _ _ => c

def ResolvedPack.kind : ResolvedPack → CodeQLPackKind
  | .mk _ _ k _ => k

def ResolvedPack.dependencies : ResolvedPack → List ResolvedPack
  | .mk _ _ _ d => d

mutual

/-- Structural equality of resolved packs (the generated dataclass `__eq__`
compares every field, recursing into the dependency list). -/
def ResolvedPack.beq : ResolvedPack → ResolvedPack → Bool
  | .mk p c k d, .mk p' c' k' d' =>
    p == p' && c == c' && k == k' && ResolvedPack.beqList d d'

def ResolvedPack.beqList : List ResolvedPack → List ResolvedPack → Bool
  | [], [] => true
  | a :: as, b :: bs => ResolvedPack.beq a b && ResolvedPack.beqList as bs
  | _, _ => false

end

/-- A pack in the resolver's candidate universe: either a not-yet-resolved
workspace pack (`packs` argument of `build_pack_resolver`) or an
already-resolved bundle pack (`already_resolved_packs`).  The Python dataclass
`__eq__` never identifies objects of the two different classes, which the
two constructors reflect. -/
inductive UPack where
  | plain (p : CodeQLPack)
  | seeded (r : ResolvedPack)

def UPack.path : UPack → Path
  | .plain p => p.path
  | .seeded r => r.path

def UPack.config : UPack → CodeQLPackConfig
  | .plain p => p.config
  | .seeded r => r.config

def UPack.version (u : UPack) : Version :=
  u.config.version

/-- Python `==` on candidate packs. -/
def UPack.beq : UPack → UPack → Bool
  | .plain p, .plain q => p == q
  | .seeded r, .seeded s => ResolvedPack.beq r s
  | _, _ => false

/-- `PackResolverException` situations, plus fuel exhaustion standing for
Python's unbounded recursion. -/
inductive ResolverError where
  | selfDependency
  | unresolvedDependency
  | outOfFuel
deriving DecidableEq

/-- The memoization dictionary `resolved_packs` of `build_pack_resolver`. -/
abbrev Memo := List (UPack × ResolvedPack)

/-- Dictionary lookup with Python `==` key comparison. -/
def memoLookup : Memo → UPack → Option ResolvedPack
  | [], _ => none
  | (k, v) :: rest, u => if UPack.beq k u then some v else memoLookup rest u

mutual

/-- The recursive worker `inner` of `build_pack_resolver.resolve`
(`helpers/bundle.py`).  `cands` is the `candidates` dictionary (with
`defaultdict(list)` semantics), `root` the pack originally passed to
`resolve`, against which the transitive self-dependency check compares.
Seeded packs are returned as-is: the memo is initialised with
`{pack: pack for pack in already_resolved_packs}` and those entries are
looked up by object identity before anything else happens to them.
Fuel decreases on every recursive call (also along the candidate and entry
lists) so that the mutual recursion is structural on the fuel; a successful
run is unaffected by how much fuel remains. -/
def resolveInner (fs : FsExists) (cands : String → List UPack) (root : UPack) :
    Nat → UPack → Memo → Except ResolverError (ResolvedPack × Memo)
  | 0, _, _ => .error .outOfFuel
  | _ + 1, .seeded r, memo => .ok (r, memo)
  | fuel + 1, .plain p, memo =>
    match memoLookup memo (.plain p) with
    | some r => .ok (r, memo)
    | none => do
      let (deps, memo') ←
        resolveEntries fs cands root fuel p.config.dependencies memo
      let rp := ResolvedPack.mk p.path p.config (get_pack_kind fs p) deps
      .ok (rp, (UPack.plain p, rp) :: memo')

/-- The `for (dep_name, dep_version) in ... dependencies.items()` loop of
`inner`: each declared entry is resolved in declaration order and appended to
`resolved_deps`. -/
def resolveEntries (fs : FsExists) (cands : String → List UPack)
    (root : UPack) :
    Nat → List (String × Constraint) → Memo →
    Except ResolverError (List ResolvedPack × Memo)
  | 0, _, _ => .error .outOfFuel
  | _ + 1, [], memo => .ok ([], memo)
  | fuel + 1, (depName, depConstraint) :: rest, memo => do
    let (found, memo') ←
      scanCandidates fs cands root fuel depConstraint (cands depName) none memo
    match found with
    | none => .error .unresolvedDependency
    | some rp => do
      let (others, memo'') ← resolveEntries fs cands root fuel rest memo'
      .ok (rp :: others, memo'')

/-- The `for candidate_pack in candidates[dep_name]` loop of `inner`: raise on
a candidate equal to the root pack, and overwrite `resolved_dep` with the
resolution of every candidate whose version satisfies the constraint (so the
last satisfying candidate wins). -/
def scanCandidates (fs : FsExists) (cands : String → List UPack)
    (root : UPack) :
    Nat → Constraint → List UPack → Option ResolvedPack → Memo →
    Except ResolverError (Option ResolvedPack × Memo)
  | 0, _, _, _, _ => .error .outOfFuel
  | _ + 1, _, [], acc, memo => .ok (acc, memo)
  | fuel + 1, depConstraint, candidate :: rest, acc, memo =>
    if UPack.beq candidate root then .error .selfDependency
    else if depConstraint.matches candidate.version then do
      let (r, memo') ← resolveInner fs cands root fuel candidate memo
      scanCandidates fs cands root fuel depConstraint rest (some r) memo'
    else
      scanCandidates fs cands root fuel depConstraint rest acc memo

end

/-- `build_pack_resolver`'s `candidates` dictionary: for each name, the packs
with that name, workspace packs first, then the already-resolved seed packs,
in list order (`for pack in packs + already_resolved_packs`). -/
def candidatesOf (allPacks : List UPack) (name : String) : List UPack :=
  allPacks.filter (fun u => u.config.name == name)

/-- Entry point `resolve` returned by `build_pack_resolver`: the root pack is
resolved against itself with an initially seed-only memo. -/
def resolvePack (fs : FsExists) (allPacks : List UPack) (fuel : Nat)
    (p : UPack) : Except ResolverError (ResolvedPack × Memo) :=
  resolveInner fs (candidatesOf allPacks) p fuel p []

/-- The selection rule as the claim states it: the last candidate in
candidate-list order whose version satisfies the constraint. -/
def lastSatisfying (c : Constraint) : List UPack → Option UPack
  | [] => none
  | u :: us =>
    match lastSatisfying c us with
    | some w => some w
    | none => if c.matches u.version then some u else none

/-- `ResolvedCodeQLPack.get_module_name`: pack name with `-` replaced by `_`
and `/` replaced by `.`. -/
def get_module_name (name : String) : String :=
  replaceChar '/' '.' (replaceChar '-' '_' name)

/-- Python `str.removesuffix`. -/
def removeSuffix (s suf : String) : String :=
  if strEndsWith s suf then ⟨s.data.take (s.data.length - suf.data.length)⟩
  else s

/-- Python exceptions surfacing in the modelled fragments.  `typeError` is the
call-binding failure for an unexpected keyword argument; `fileNotFoundError`
is what `Path.unlink` and `shutil.rmtree` raise on a missing entry;
`bundleException` is the tool's own failure class. -/
inductive PyError where
  | typeError (kwarg : String)
  | fileNotFoundError (entry : String)
  | bundleException (msg : String)
  | codeqlException
  | indexError
  | keyError
  | outOfFuel
deriving DecidableEq, Repr

/-- The keyword-bindable surface of a Python function signature: the names of
its positional-or-keyword parameters, and whether it has a `**kwargs`
catch-all.  A `*args` var-positional parameter never binds a keyword. -/
structure PySignature where
  posNames : List String
  hasVarKeyword : Bool
deriving DecidableEq, Repr

/-- `CodeQL.pack_bundle(self, pack, output_path, *additional_packs)`
(`helpers/codeql.py`): three keyword-bindable parameters, no `**kwargs`. -/
def pack_bundle_sig : PySignature :=
  { posNames := ["self", "pack", "output_path"], hasVarKeyword := false }

/-- `CodeQL.pack_create(self, pack, output_path, *additional_packs)`. -/
def pack_create_sig : PySignature :=
  { posNames := ["self", "pack", "output_path"], hasVarKeyword := false }

/-- Python call binding for keyword arguments: a keyword that names no
parameter of the signature (and has no `**kwargs` to fall into) raises
`TypeError` before the function body runs. -/
def bindKeywords (sig : PySignature) (kwargs : List String) :
    Except PyError Unit :=
  match kwargs.find? (fun k => !(sig.posNames.contains k) && !sig.hasVarKeyword) with
  | some k => .error (.typeError k)
  | none => .ok ()

/-- The files of (a staged copy of) a standard library pack that
`bundle_stdlib_pack` reads and rewrites: the manifest's `dependencies`
mapping (absent key modelled as `none`), and the `Customizations.qll` and
`<language>.qll` files (absent file modelled as `none`). -/
structure StdlibPackFiles where
  manifestDependencies : Option (List (String × String))
  customizationsQll : Option (List String)
  languageQll : Option (List String)
deriving DecidableEq, Repr

/-- Presence of the artifacts `bundle_query_pack` deletes from the copy of a
`codeql`-scope query pack. -/
structure QueryPackFsState where
  hasLockFile : Bool
  hasDependenciesDir : Bool
  hasCacheDir : Bool
deriving DecidableEq, Repr

/-- Environment for a run of `add_packs`: outcomes of the external `codeql`
subprocesses and the on-disk state the staged pack copies start from. -/
structure AddPacksEnv where
  packBundleExec : String → Except PyError Unit
  packCreateExec : String → Except PyError Unit
  stdLibDepsOf : String → List CodeQLPackConfig
  filesOf : String → StdlibPackFiles
  queryPackFs : String → QueryPackFsState

/-- Python `dict` assignment `d[k] = v` on an insertion-ordered mapping:
overwrite in place if the key exists, else append. -/
def dictSet : List (String × String) → String → String → List (String × String)
  | [], k, v => [(k, v)]
  | (k', v') :: rest, k, v =>
    if k' = k then (k, v) :: rest else (k', v') :: dictSet rest k v

/-- Ordered-mapping lookup. -/
def dictGet : List (String × String) → String → Option String
  | [], _ => none
  | (k', v') :: rest, k => if k' = k then some v' else dictGet rest k

/-- An invocation `self.codeql.pack_bundle(pack, out, <kwargs>)`: keyword
binding happens first; only then does the method body run (its guard against
non-library packs, then the external subprocess). -/
def invokePackBundle (env : AddPacksEnv) (pack : ResolvedPack)
    (kwargs : List String) : Except PyError Unit := do
  let _ ← bindKeywords pack_bundle_sig kwargs
  if !pack.config.library then .error .codeqlException
  else env.packBundleExec pack.config.name

/-- An invocation `self.codeql.pack_create(pack, out, ...)`; `add_packs`
passes it positional arguments only. -/
def invokePackCreate (env : AddPacksEnv) (pack : ResolvedPack)
    (kwargs : List String) : Except PyError Unit := do
  let _ ← bindKeywords pack_create_sig kwargs
  if pack.config.library then .error .codeqlException
  else env.packCreateExec pack.config.name

/-- `bundle_customization_pack` (`helpers/bundle.py`, inside `add_packs`):
copy the pack, overwrite the copy's manifest `dependencies` with the empty
mapping, then invoke `pack_bundle` on the copy with the keyword argument
`disable_precompilation`.  The first component is the staged copy's rewritten
`dependencies` mapping; the second is the outcome of the invocation. -/
def bundle_customization_pack (env : AddPacksEnv) (pack : ResolvedPack) :
    List (String × String) × Except PyError Unit :=
  ([], invokePackBundle env pack ["disable_precompilation"])

/-- `add_customization_support` (`helpers/bundle.py`): a no-op for packs that
already have a `Customizations.qll` or are not `codeql`-scope library packs;
otherwise infer the language from the pack name (strip `-all`), insert
the line `import Customizations` immediately before the first
existing `import` line of
`<language>.qll` (failing if the language module or an import line is
missing), and create `Customizations.qll` with the sole line
the line `import <language>`. -/
def add_customization_support (config : CodeQLPackConfig)
    (files : StdlibPackFiles) : Except PyError StdlibPackFiles :=
  if files.customizationsQll.isSome then .ok files
  else if !(config.get_scope == some "codeql") || !config.library then .ok files
  else
    let lang := removeSuffix config.get_pack_name "-all"
    match files.languageQll with
    | none => .error (.bundleException "cannot determine the language library")
    | some lines =>
      match lines.findIdx? (fun l => strStartsWith l "import") with
      | none => .error (.bundleException "cannot determine the first import statement")
      | some idx =>
        .ok { manifestDependencies := files.manifestDependencies
              languageQll := some (lines.insertIdx idx "import Customizations")
              customizationsQll := some ["import " ++ lang] }

/-- The file rewrites of `bundle_stdlib_pack` (`helpers/bundle.py`), applied
to the staged copy before the `pack_bundle` invocation: add each
customization pack to the manifest's dependencies with `str` of its version,
ensure a `Customizations.qll` exists (via `add_customization_support`), and
append one `import <module>.Customizations` line per customization pack. -/
def bundle_stdlib_pack_rewrite (config : CodeQLPackConfig)
    (customizations : List CodeQLPackConfig) (files : StdlibPackFiles) :
    Except PyError StdlibPackFiles := do
  let deps0 := files.manifestDependencies.getD []
  let deps := customizations.foldl
    (fun d c => dictSet d c.name c.version.toStr) deps0
  let files := { files with manifestDependencies := some deps }
  let files ←
    if (files.customizationsQll.isSome : Bool) then pure files
    else add_customization_support config files
  match files.customizationsQll with
  | none => .error (.fileNotFoundError "Customizations.qll")
  | some contents =>
    let contents := contents ++ customizations.map
      (fun c => "import " ++ get_module_name c.name ++ ".Customizations")
    .ok { files with customizationsQll := some contents }

/-- `bundle_stdlib_pack` end to end: the file rewrites, then the `pack_bundle`
invocation with the `disable_precompilation` keyword argument. -/
def bundle_stdlib_pack_run (env : AddPacksEnv) (pack : ResolvedPack) :
    Except PyError Unit := do
  let _ ← bundle_stdlib_pack_rewrite pack.config
    (env.stdLibDepsOf pack.config.name) (env.filesOf pack.config.name)
  invokePackBundle env pack ["disable_precompilation"]

/-- `bundle_library_pack`: a plain `pack_bundle` invocation, again with the
`disable_precompilation` keyword argument. -/
def bundle_library_pack (env : AddPacksEnv) (pack : ResolvedPack) :
    Except PyError Unit :=
  invokePackBundle env pack ["disable_precompilation"]

/-- The manifest rewrite of `bundle_query_pack` for a workspace query pack:
`{dep.name: str(dep.version) for dep in pack_copy.dependencies}`. -/
def query_pack_manifest_rewrite (deps : List ResolvedPack) :
    List (String × String) :=
  deps.foldl (fun m d => dictSet m d.config.name d.config.version.toStr) []

/-- `bundle_query_pack` (`helpers/bundle.py`): for a `codeql`-scope pack,
delete the copy's lock file with `Path.unlink` (raising `FileNotFoundError`
when absent), delete its `.codeql` directory with `shutil.rmtree` (raising
`FileNotFoundError` when absent), delete `.cache` with
`shutil.rmtree(..., ignore_errors=True)` (never raising), then recreate with
`pack_create` (positional arguments only).  For any other scope, rewrite the
copy's manifest dependencies and recreate.  Returns the staged copy's
cleaned-up state. -/
def bundle_query_pack (env : AddPacksEnv) (pack : ResolvedPack) :
    Except PyError QueryPackFsState := do
  if pack.config.get_scope == some "codeql" then
    let fs := env.queryPackFs pack.config.name
    let _ ← if fs.hasLockFile then .ok ()
            else .error (PyError.fileNotFoundError "codeql-pack.lock.yml")
    let _ ← if fs.hasDependenciesDir then .ok ()
            else .error (PyError.fileNotFoundError ".codeql")
    let fs' : QueryPackFsState :=
      { hasLockFile := false, hasDependenciesDir := false, hasCacheDir := false }
    let _ ← invokePackCreate env pack []
    .ok fs'
  else
    let _ ← invokePackCreate env pack []
    .ok (env.queryPackFs pack.config.name)

/-- The per-pack dispatch of `add_packs`' final `for pack in sorted_packs`
loop. -/
def process_sorted_pack (env : AddPacksEnv) (pack : ResolvedPack) :
    Except PyError Unit :=
  match pack.kind with
  | .CUSTOMIZATION_PACK => (bundle_customization_pack env pack).2
  | .LIBRARY_PACK =>
    if pack.config.get_scope == some "codeql" then bundle_stdlib_pack_run env pack
    else bundle_library_pack env pack
  | .QUERY_PACK => (bundle_query_pack env pack).map (fun _ => ())

/-- Running the dispatch loop over the topologically ordered packs: returns
the names of the packs processed to completion, and the first uncaught
exception (the loop stops there), if any. -/
def add_packs_process (env : AddPacksEnv) :
    List ResolvedPack → List String × Option PyError
  | [] => ([], none)
  | p :: rest =>
    match process_sorted_pack env p with
    | .error e => ([], some e)
    | .ok _ =>
      let (done, err) := add_packs_process env rest
      (p.config.name :: done, err)

/-- Object identity of a Python `ResolvedCodeQLPack` during `add_packs`:
distinct live objects get distinct ids. -/
abbrev NodeId := Nat

/-- The state of one pack object: its immutable manifest and kind, and its
mutable `dependencies` list (a list of object references).  `add_packs`
mutates the latter in place via `pack.dependencies.append(...)`. -/
structure PackNode where
  config : CodeQLPackConfig
  kind : CodeQLPackKind
  deps : List NodeId
deriving DecidableEq, Repr

/-- The heap of pack objects. -/
abbrev Store := List (NodeId × PackNode)

def storeGet : Store → NodeId → Option PackNode
  | [], _ => none
  | (i, n) :: rest, j => if i = j then some n else storeGet rest j

/-- In-place update of an existing object. -/
def storeSet : Store → NodeId → PackNode → Store
  | [], _, _ => []
  | (i, n) :: rest, j, n' =>
    if i = j then (j, n') :: rest else (i, n) :: storeSet rest j n'

/-- `defaultdict(list)` append `m[k].append(v)`: extend the entry in place,
or create it at the end (Python dict insertion order). -/
def dlistAppend : List (NodeId × List NodeId) → NodeId → NodeId →
    List (NodeId × List NodeId)
  | [], k, v => [(k, [v])]
  | (k', vs) :: rest, k, v =>
    if k' = k then (k, vs ++ [v]) :: rest else (k', vs) :: dlistAppend rest k v

/-- State threaded through `add_packs`' graph construction: the object heap,
the `processed_packs` set, the `std_lib_deps` mapping, and the sequence of
`pack_sorter.add(node, *predecessors)` calls made so far. -/
structure PlanState where
  store : Store
  processed : List NodeId
  stdLibDeps : List (NodeId × List NodeId)
  sorterCalls : List (NodeId × List NodeId)
deriving DecidableEq, Repr

/-- The dependency-completion loop of `add_to_graph` for QUERY packs
(`helpers/bundle.py` lines 361-372): over the direct dependencies that are
customization packs (a snapshot), append each one's first dependency (its
target standard library) to the pack's own dependency list unless already
present.  The membership test sees the list as already extended by earlier
iterations, exactly as the live Python list does. -/
def complete_loop (pid : NodeId) : List NodeId → Store → Except PyError Store
  | [], store => .ok store
  | c :: cs, store =>
    match storeGet store c with
    | none => .error PyError.keyError
    | some cnode =>
      match cnode.deps.head? with
      | none => .error PyError.indexError
      | some std =>
        match storeGet store pid with
        | none => .error PyError.keyError
        | some pnode =>
          let store' :=
            if std ∈ pnode.deps then store
            else storeSet store pid { pnode with deps := pnode.deps ++ [std] }
          complete_loop pid cs store'

def completeQueryDeps (store : Store) (pid : NodeId) :
    Except PyError Store :=
  match storeGet store pid with
  | none => .error .keyError
  | some node =>
    complete_loop pid
      (node.deps.filter (fun d =>
        match storeGet store d with
        | some dn => dn.kind == CodeQLPackKind.CUSTOMIZATION_PACK
        | none => false))
      store

mutual

/-- `add_to_graph` (`helpers/bundle.py`): skip non-workspace packs; put a
customization pack into the sorter with no predecessors and record it under
its target standard library in `std_lib_deps`; for other packs, first
complete a QUERY pack's dependencies, then add the pack with its (current)
dependencies as sorter predecessors and recurse into the unprocessed ones;
finally mark the pack processed. -/
def add_to_graph (workspace : List NodeId) :
    Nat → NodeId → PlanState → Except PyError PlanState
  | 0, _, _ => .error .outOfFuel
  | fuel + 1, pid, st =>
    match storeGet st.store pid with
    | none => .error .keyError
    | some node =>
      if pid ∉ workspace then .ok st
      else if node.kind == CodeQLPackKind.CUSTOMIZATION_PACK then
        let st := { st with sorterCalls := st.sorterCalls ++ [(pid, [])] }
        match node.deps.head? with
        | none => .error .indexError
        | some std =>
          let st := { st with stdLibDeps := dlistAppend st.stdLibDeps std pid }
          .ok { st with processed := st.processed ++ [pid] }
      else do
        let store' ←
          if node.kind == CodeQLPackKind.QUERY_PACK then
            completeQueryDeps st.store pid
          else .ok st.store
        match storeGet store' pid with
        | none => .error .keyError
        | some node' =>
          let st := { st with
            store := store'
            sorterCalls := st.sorterCalls ++ [(pid, node'.deps)] }
          let st ← add_deps_list workspace fuel node'.deps st
          .ok { st with processed := st.processed ++ [pid] }

/-- The `for dep in pack.dependencies: if dep not in processed_packs:
add_to_graph(dep, ...)` loop. -/
def add_deps_list (workspace : List NodeId) :
    Nat → List NodeId → PlanState → Except PyError PlanState
  | 0, _, _ => .error .outOfFuel
  | _ + 1, [], st => .ok st
  | fuel + 1, d :: ds, st => do
    let st' ←
      if d ∈ st.processed then .ok st
      else add_to_graph workspace fuel d st
    add_deps_list workspace fuel ds st'

end

mutual

/-- `is_dependent_on` (`helpers/bundle.py`): direct membership, else any
dependency transitively depends on `other`. -/
def is_dependent_on (store : Store) :
    Nat → NodeId → NodeId → Except PyError Bool
  | 0, _, _ => .error .outOfFuel
  | fuel + 1, pid, other =>
    match storeGet store pid with
    | none => .error .keyError
    | some node =>
      if other ∈ node.deps then .ok true
      else is_dependent_on_any store fuel node.deps other

def is_dependent_on_any (store : Store) :
    Nat → List NodeId → NodeId → Except PyError Bool
  | 0, _, _ => .error .outOfFuel
  | _ + 1, [], _ => .ok false
  | fuel + 1, d :: ds, other => do
    let b ← is_dependent_on store fuel d other
    if b then .ok true else is_dependent_on_any store fuel ds other

end

/-- The `for pack in packs: if pack not in processed_packs:
add_to_graph(pack, ...)` loop of `add_packs`. -/
def packs_loop (workspace : List NodeId) (fuel : Nat) :
    List NodeId → PlanState → Except PyError PlanState
  | [], st => .ok st
  | p :: ps, st => do
    let st' ←
      if p ∈ st.processed then .ok st
      else add_to_graph workspace fuel p st
    packs_loop workspace fuel ps st'

/-- The `for query_pack in [p for p in self.bundle_packs if ...]` loop of
`add_packs`: every bundle QUERY pack transitively depending on the
customized standard library is added with the standard library as
predecessor. -/
def bundle_query_loop (fuel : Nat) (std : NodeId) :
    List NodeId → PlanState → Except PyError PlanState
  | [], st => .ok st
  | bp :: bps, st => do
    match storeGet st.store bp with
    | none => .error PyError.keyError
    | some bnode =>
      if bnode.kind == CodeQLPackKind.QUERY_PACK then do
        let b ← is_dependent_on st.store fuel bp std
        let st' :=
          if b then { st with sorterCalls := st.sorterCalls ++ [(bp, [std])] }
          else st
        bundle_query_loop fuel std bps st'
      else bundle_query_loop fuel std bps st

/-- The `for pack, deps in std_lib_deps.items()` loop of `add_packs`: each
customized standard library is added with its customization packs as
predecessors, followed by the dependent bundle query packs. -/
def stdlib_loop (fuel : Nat) (bundlePacks : List NodeId) :
    List (NodeId × List NodeId) → PlanState → Except PyError PlanState
  | [], st => .ok st
  | (std, custs) :: rest, st => do
    let st1 := { st with sorterCalls := st.sorterCalls ++ [(std, custs)] }
    let st2 ← bundle_query_loop fuel std bundlePacks st1
    stdlib_loop fuel bundlePacks rest st2

/-- The whole graph-construction phase of `add_packs`: traverse the selected
packs, then for each customized standard library add it (with its
customization packs as predecessors) and every bundle QUERY pack that
transitively depends on it (with the standard library as predecessor). -/
def plan_packs (fuel : Nat) (workspace bundlePacks : List NodeId)
    (packs : List NodeId) (store0 : Store) : Except PyError PlanState := do
  let st0 : PlanState :=
    { store := store0, processed := [], stdLibDeps := [], sorterCalls := [] }
  let st ← packs_loop workspace fuel packs st0
  stdlib_loop fuel bundlePacks st.stdLibDeps st

/-- Bookkeeping of `graphlib.TopologicalSorter` for one node: its current
predecessor count and its successor list. -/
structure TSNodeInfo where
  npredecessors : Nat
  successors : List NodeId
deriving DecidableEq, Repr

/-- The sorter's `_node2info` dictionary, in insertion order. -/
structure TSState where
  node2info : List (NodeId × TSNodeInfo)
deriving DecidableEq, Repr

def infoLookup : List (NodeId × TSNodeInfo) → NodeId → Option TSNodeInfo
  | [], _ => none
  | e :: rest, n => if e.1 = n then some e.2 else infoLookup rest n

def tsFind (ts : TSState) (n : NodeId) : Option TSNodeInfo :=
  infoLookup ts.node2info n

/-- `_get_nodeinfo`: create a fresh entry on first touch. -/
def tsGetOrAdd (ts : TSState) (n : NodeId) : TSState :=
  if (tsFind ts n).isSome then ts
  else ⟨ts.node2info ++ [(n, ⟨0, []⟩)]⟩

def tsModify (ts : TSState) (n : NodeId) (f : TSNodeInfo → TSNodeInfo) :
    TSState :=
  ⟨ts.node2info.map (fun e => if e.1 = n then (e.1, f e.2) else e)⟩

/-- `TopologicalSorter.add(node, *predecessors)`: register the node, count the
given predecessors (with multiplicity), and append the node to each
predecessor's successor list. -/
def tsAdd (ts : TSState) (node : NodeId) (preds : List NodeId) : TSState :=
  let ts := tsGetOrAdd ts node
  let ts := tsModify ts node (fun i =>
    { i with npredecessors := i.npredecessors + preds.length })
  preds.foldl (fun ts p =>
    tsModify (tsGetOrAdd ts p) p (fun i =>
      { i with successors := i.successors ++ [node] })) ts

/-- Build the sorter from the recorded `add` calls. -/
def buildTS (calls : List (NodeId × List NodeId)) : TSState :=
  calls.foldl (fun ts c => tsAdd ts c.1 c.2) ⟨[]⟩

def tsSucc (ts : TSState) (n : NodeId) : List NodeId :=
  match tsFind ts n with
  | some i => i.successors
  | none => []

def tsNodes (ts : TSState) : List NodeId :=
  ts.node2info.map (fun e => e.1)

/-- Current predecessor count of a node (zero for unregistered ids). -/
def tsNpred (ts : TSState) (n : NodeId) : Nat :=
  match tsFind ts n with
  | some i => i.npredecessors
  | none => 0

/-- The `for successor in nodeinfo.successor_nodes` loop of
`TopologicalSorter.done`: decrement each listed successor once per recorded
edge instance and collect, in encounter order, the nodes whose count thereby
reaches zero (graphlib appends them to `_ready_nodes` at the moment the
count hits zero, hence the `c == 1` test on the pre-decrement value). -/
def decSuccessors (counts : NodeId → Nat) :
    List NodeId → (NodeId → Nat) × List NodeId
  | [] => (counts, [])
  | s :: rest =>
    let c := counts s
    let counts' := fun m => if m = s then c - 1 else counts m
    let r := decSuccessors counts' rest
    if c == 1 then (r.1, s :: r.2) else (r.1, r.2)

/-- `TopologicalSorter.done(node)` on the counts-only view. -/
def tsDone (succ : NodeId → List NodeId) (counts : NodeId → Nat) (n : NodeId) :
    (NodeId → Nat) × List NodeId :=
  decSuccessors counts (succ n)

/-- One `static_order` round: `done` every member of the yielded group, in
group order, accumulating the newly ready nodes. -/
def tsGroupDone (succ : NodeId → List NodeId) (counts : NodeId → Nat) :
    List NodeId → (NodeId → Nat) × List NodeId
  | [] => (counts, [])
  | g :: gs =>
    let r := tsDone succ counts g
    let r2 := tsGroupDone succ r.1 gs
    (r2.1, r.2 ++ r2.2)

/-- The `while is_active: yield from get_ready(); done(*group)` loop of
`static_order`.  Fuel only guards against inconsistent count functions; with
the counts produced by `buildTS` the loop always terminates within
`#nodes + 1` rounds. -/
def sortLoop (succ : NodeId → List NodeId) :
    Nat → (NodeId → Nat) → List NodeId → List NodeId → List NodeId
  | _, _, [], acc => acc
  | 0, _, _, acc => acc
  | fuel + 1, counts, ready, acc =>
    let r := tsGroupDone succ counts ready
    sortLoop succ fuel r.1 r.2 (acc ++ ready)

/-- `TopologicalSorter.static_order()`: `prepare` collects the zero-count
nodes in insertion order as the initial ready list, then the loop emits
group after group. -/
def static_order (ts : TSState) : List NodeId :=
  let counts := fun n => tsNpred ts n
  let ready := (ts.node2info.filter
    (fun e => e.2.npredecessors == 0)).map (fun e => e.1)
  sortLoop (tsSucc ts) (ts.node2info.length + 1) counts ready []

/-- The composition order `add_packs` actually computes:
`list(pack_sorter.static_order())` over the constructed graph. -/
def add_packs_order (fuel : Nat) (workspace bundlePacks packs : List NodeId)
    (store0 : Store) : Except PyError (List NodeId) := do
  let st ← plan_packs fuel workspace bundlePacks packs store0
  .ok (static_order (buildTS st.sorterCalls))

/-- The tie-break key order claimed by the specification: kind
(CUSTOMIZATION before LIBRARY before QUERY), then pack name, then version. -/
def kindRank : CodeQLPackKind → Nat
  | .CUSTOMIZATION_PACK => 0
  | .LIBRARY_PACK => 1
  | .QUERY_PACK => 2

/-- Strict version order. -/
def Version.ltStrict (a b : Version) : Bool :=
  Version.le a b && !(a == b)

/-- Modelled from the spec: the claimed deterministic tie-break comparator
over pack nodes — kind order CUSTOMIZATION < LIBRARY < QUERY, then name,
then version. -/
def claimKeyLt (a b : PackNode) : Bool :=
  kindRank a.kind < kindRank b.kind ||
    (kindRank a.kind == kindRank b.kind &&
      (strLt a.config.name b.config.name ||
        (a.config.name == b.config.name &&
          Version.ltStrict a.config.version b.config.version)))

/-- Modelled from the spec: pick, among the currently ready nodes, the
minimal one under the claimed tie-break key (first occurrence on exact key
ties). -/
def claimPickMin (store : Store) : List NodeId → Option NodeId
  | [] => none
  | n :: ns =>
    match claimPickMin store ns with
    | none => some n
    | some m =>
      match storeGet store n, storeGet store m with
      | some an, some am => if claimKeyLt am an then some m else some n
      | _, _ => some n

/-- Modelled from the spec: Kahn's algorithm where ties among ready nodes are
broken by the claimed (kind, name, version) key. -/
def claimLoop (store : Store) (succ : NodeId → List NodeId) :
    Nat → (NodeId → Nat) → List NodeId → List NodeId → List NodeId
  | 0, _, _, acc => acc
  | fuel + 1, counts, ready, acc =>
    match claimPickMin store ready with
    | none => acc
    | some n =>
      let ready' := ready.erase n
      let r := tsDone succ counts n
      claimLoop store succ fuel r.1 (ready' ++ r.2) (acc ++ [n])

/-- Modelled from the spec: the composition order the claim describes — a
topological order of the same graph with ties broken by (kind, name,
version). -/
def claimed_order (store : Store) (ts : TSState) : List NodeId :=
  let counts := fun n => tsNpred ts n
  let ready := (ts.node2info.filter
    (fun e => e.2.npredecessors == 0)).map (fun e => e.1)
  claimLoop store (tsSucc ts) (ts.node2info.length + 1) counts ready []

/-- `BundlePlatform` (`helpers/bundle.py`). -/
inductive BundlePlatform where
  | LINUX
  | WINDOWS
  | OSX
deriving DecidableEq, Repr

/-- `BundlePlatform.__str__`. -/
def BundlePlatform.str : BundlePlatform → String
  | .LINUX => "linux64"
  | .WINDOWS => "win64"
  | .OSX => "osx64"

/-- The per-platform tool directory name (the `<p-dir>` of the claim). -/
def platformDirName : BundlePlatform → String :=
  BundlePlatform.str

/-- `relative_tools_paths` (`filter_for_platform`): `<language>/tools` for
each detected language, then the top-level `tools`. -/
def relative_tools_paths (languages : List String) : List Path :=
  languages.map (fun lang => [lang, "tools"]) ++ [["tools"]]

def linux64_subpaths : List Path := [["linux64"], ["linux"]]

def osx64_subpaths : List Path := [["osx64"], ["macos"]]

def win64_subpaths : List Path := [["win64"], ["windows"]]

/-- `specialize_path` inside `get_nonplatform_tool_paths`: under a given
tools directory, the subdirectories of the two non-target platforms. -/
def specializePath (platform : BundlePlatform) (p : Path) : List Path :=
  match platform with
  | .LINUX => (osx64_subpaths ++ win64_subpaths).map (fun s => p ++ s)
  | .WINDOWS => (osx64_subpaths ++ linux64_subpaths).map (fun s => p ++ s)
  | .OSX => (linux64_subpaths ++ win64_subpaths).map (fun s => p ++ s)

/-- `get_nonplatform_tool_paths` (`helpers/bundle.py`): flattening the
specialized candidates of every tools directory. -/
def get_nonplatform_tool_paths (languages : List String)
    (platform : BundlePlatform) : List Path :=
  ((relative_tools_paths languages).map (specializePath platform)).flatten

/-- The full exclusion list the archive `filter` assembles for a target
platform, in source order: the non-platform tool paths, then `codeql.exe`
for non-Windows targets or `swift/qltest` and `swift/resource-dir` for
Windows, then the extra swift exclusions for Linux and OSX. -/
def exclusion_paths (languages : List String) (platform : BundlePlatform) :
    List Path :=
  let ex := get_nonplatform_tool_paths languages platform
  let ex :=
    if platform ≠ BundlePlatform.WINDOWS then ex ++ [["codeql.exe"]]
    else ex ++ [["swift", "qltest"], ["swift", "resource-dir"]]
  let ex :=
    if platform = BundlePlatform.LINUX then
      ex ++ [["swift", "qltest", "osx64"], ["swift", "resource-dir", "osx64"]]
    else ex
  if platform = BundlePlatform.OSX then
    ex ++ [["swift", "qltest", "linux64"], ["swift", "resource-dir", "linux64"]]
  else ex

/-- The tar member filter of `create_bundle_for_platform`: prepend the
member's top-level component to every exclusion rule and drop the member
exactly when its path is a descendant of (or equal to) one of them.  A tar
member name is never empty; the `[]` case is unreachable. -/
def tar_filter (languages : List String) (platform : BundlePlatform)
    (tarPath : Path) : Option Path :=
  match tarPath with
  | [] => none
  | root :: rest =>
    let ex := (exclusion_paths languages platform).map (fun p => root :: p)
    if ex.any (fun p => pathLeadsTo p (root :: rest)) then none
    else some (root :: rest)

/-- `CustomBundle.bundle` (`helpers/bundle.py`), abstracted to the decisions
that order its effects: with no requested platforms one archive is written;
otherwise the output must be a directory and every requested platform must be
supported, both checked before any per-platform archive is created.  The
first component lists the archives written, the second the raised failure. -/
def bundle_run (outputIsDir : Bool)
    (requested supported : List BundlePlatform) :
    List String × Option PyError :=
  if requested.isEmpty then (["codeql-bundle.tar.gz"], none)
  else if !outputIsDir then
    ([], some (.bundleException "output path must be a directory"))
  else
    let unsupported := requested.filter (fun p => p ∉ supported)
    if !unsupported.isEmpty then
      ([], some (.bundleException "unsupported platforms specified"))
    else
      (requested.map (fun p => "codeql-bundle-" ++ p.str ++ ".tar.gz"), none)

/-- Dependency lists only ever grow by appending during `add_packs`. -/
def depsGrow (a b : List NodeId) : Prop :=
  ∃ t, b = a ++ t

/-- Executable store sanity used as a hypothesis: the first dependency of
every customization pack, when registered, is not itself a customization
pack (spec invariant 1: it is the target standard library). -/
def wfStore (store : Store) : Bool :=
  store.all (fun e =>
    if e.2.kind == CodeQLPackKind.CUSTOMIZATION_PACK then
      match e.2.deps.head? with
      | some std =>
        match storeGet store std with
        | some stdNode => !(stdNode.kind == CodeQLPackKind.CUSTOMIZATION_PACK)
        | none => true
      | none => true
    else true)

/-- Memo well-formedness for the resolver: every memoised resolution keeps
the path and manifest of its key. -/
def MemoWf (memo : Memo) : Prop :=
  ∀ k v, (k, v) ∈ memo → v.path = k.path ∧ v.config = k.config

/-- Soundness statement for `resolveInner` at a given fuel: a successful
resolution keeps the pack's path and manifest and preserves memo
well-formedness. -/
def InnerP (fs : FsExists) (cands : String → List UPack) (root : UPack)
    (fuel : Nat) : Prop :=
  ∀ u memo rp m', resolveInner fs cands root fuel u memo = .ok (rp, m') →
    MemoWf memo → rp.path = u.path ∧ rp.config = u.config ∧ MemoWf m'

/-- Soundness statement for `scanCandidates`: on success the result is the
resolution of the last constraint-satisfying candidate, or the accumulator
when no candidate satisfies the constraint. -/
def ScanP (fs : FsExists) (cands : String → List UPack) (root : UPack)
    (fuel : Nat) : Prop :=
  ∀ (c : Constraint) (l : List UPack) (acc : Option ResolvedPack)
    (memo : Memo) (res : Option ResolvedPack) (m' : Memo),
    scanCandidates fs cands root fuel c l acc memo = .ok (res, m') →
    MemoWf memo →
    MemoWf m' ∧
    (match lastSatisfying c l with
     | some w => ∃ rp, res = some rp ∧ rp.path = w.path ∧ rp.config = w.config
     | none => res = acc)

/-- Soundness statement for `resolveEntries`: on success there is exactly one
resolved dependency per declared entry, in declaration order, each being the
last satisfying candidate of its entry. -/
def EntriesP (fs : FsExists) (cands : String → List UPack) (root : UPack)
    (fuel : Nat) : Prop :=
  ∀ (entries : List (String × Constraint)) (memo : Memo)
    (rs : List ResolvedPack) (m' : Memo),
    resolveEntries fs cands root fuel entries memo = .ok (rs, m') →
    MemoWf memo →
    MemoWf m' ∧ rs.length = entries.length ∧
    (∀ i (hi : i < entries.length) (hri : i < rs.length),
      ∃ w, lastSatisfying (entries.get ⟨i, hi⟩).2
          (cands (entries.get ⟨i, hi⟩).1) = some w ∧
        (rs.get ⟨i, hri⟩).path = w.path ∧
        (rs.get ⟨i, hri⟩).config = w.config)

/-- The in-weight of a node: how many recorded edge instances point at it
from nodes not yet done. -/
def inWeight (ts : TSState) (done : List NodeId) (n : NodeId) : Nat :=
  (((tsNodes ts).filter (fun p => !(p ∈ done : Bool))).map
    (fun p => (tsSucc ts p).count n)).sum

/-- Structural sanity of a sorter state, established for every state built
from `add` calls: distinct node keys, successor lists referring only to
registered nodes, predecessor counts dominating the recorded in-weights, and
default-zero bookkeeping for unregistered ids. -/
def TSInv (ts : TSState) : Prop :=
  (tsNodes ts).Nodup ∧
  (∀ p n, n ∈ tsSucc ts p → n ∈ tsNodes ts ∧ p ∈ tsNodes ts) ∧
  (∀ n, n ∈ tsNodes ts → tsNpred ts n ≥ inWeight ts [] n) ∧
  (∀ n, n ∉ tsNodes ts → tsNpred ts n = 0 ∧ tsSucc ts n = [])

/-- Well-formedness of a sorter state as produced by `add` calls: distinct
node keys, successor lists between registered nodes, and predecessor counts
equal to the recorded in-weights. -/
def TSWf (ts : TSState) : Prop :=
  (tsNodes ts).Nodup ∧
  (∀ p n, n ∈ tsSucc ts p → p ∈ tsNodes ts ∧ n ∈ tsNodes ts) ∧
  (∀ n, tsNpred ts n = inWeight ts [] n)

/-- Safety of customization targets in a heap: the first dependency of a
customization pack, when registered, is not itself a customization pack.
This is the propositional reading of `wfStore`. -/
def CustTargetsSafe (s : Store) : Prop :=
  ∀ c node, storeGet s c = some node →
    node.kind = CodeQLPackKind.CUSTOMIZATION_PACK →
    ∀ std, node.deps.head? = some std →
      ∀ stdN, storeGet s std = some stdN →
        stdN.kind ≠ CodeQLPackKind.CUSTOMIZATION_PACK

/-- How `add_packs`' graph construction evolves the heap: registered ids
stay registered (and vice versa), manifests and kinds never change,
dependency lists only grow by appended entries that are never customization
packs, and only QUERY packs' lists grow at all. -/
def StoreEvolves (s s' : Store) : Prop :=
  (∀ n, storeGet s n = none ↔ storeGet s' n = none) ∧
  ∀ n node, storeGet s n = some node →
    ∃ node', storeGet s' n = some node' ∧
      node'.config = node.config ∧ node'.kind = node.kind ∧
      (∃ t, node'.deps = node.deps ++ t ∧
        ∀ x ∈ t, ∀ nodex, storeGet s' x = some nodex →
          nodex.kind ≠ CodeQLPackKind.CUSTOMIZATION_PACK) ∧
      (node.kind ≠ CodeQLPackKind.QUERY_PACK → node'.deps = node.deps)

/-- The dependency-completion guarantee over a planner state: every
processed QUERY pack has, for each customization pack among its (current)
dependencies, that pack's first dependency in its own dependency list. -/
def PlanGood (st : PlanState) : Prop :=
  ∀ q, q ∈ st.processed → ∀ nodeq, storeGet st.store q = some nodeq →
    nodeq.kind = CodeQLPackKind.QUERY_PACK →
    ∀ c, c ∈ nodeq.deps → ∀ nodec, storeGet st.store c = some nodec →
      nodec.kind = CodeQLPackKind.CUSTOMIZATION_PACK →
      ∀ std, nodec.deps.head? = some std →
        std ∈ nodeq.deps

/-- Example environment: every external `codeql` subprocess succeeds and the
staged copies are intact. -/
def exEnv : AddPacksEnv :=
  { packBundleExec := fun _ => .ok ()
    packCreateExec := fun _ => .ok ()
    stdLibDepsOf := fun _ => []
    filesOf := fun _ => ⟨some [], some ["import cpp"], some ["import cpp"]⟩
    queryPackFs := fun _ => ⟨true, true, false⟩ }

/-- Example workspace customization pack. -/
def exCustPack : ResolvedPack :=
  .mk ["ws", "cust", "qlpack.yml"]
    { library := true, name := "acme/java-ext", version := ⟨1, 0, 0⟩
      dependencies := [("codeql/java-all", .wildcard)] }
    .CUSTOMIZATION_PACK []

/-- Example workspace query pack (non-`codeql` scope). -/
def exQueryPack : ResolvedPack :=
  .mk ["ws", "q", "qlpack.yml"]
    { library := false, name := "acme/queries", version := ⟨1, 0, 0⟩ }
    .QUERY_PACK []

/-- Example `codeql`-scope query pack. -/
def exStdQueryPack : ResolvedPack :=
  .mk ["bundle", "qlpacks", "codeql", "cpp-queries", "1.0.0", "qlpack.yml"]
    { library := false, name := "codeql/cpp-queries", version := ⟨1, 0, 0⟩ }
    .QUERY_PACK []

/-- Example standard library manifest. -/
def c2Config : CodeQLPackConfig :=
  { library := true, name := "codeql/cpp-all", version := ⟨1, 0, 0⟩ }

/-- Example customization pack manifest targeting `c2Config`. -/
def c2Cust : CodeQLPackConfig :=
  { library := true, name := "acme/cpp-ext", version := ⟨0, 1, 0⟩ }

/-- Standard library copy that already ships a `Customizations.qll` but whose
language module has no `import Customizations` line. -/
def c2FilesPre : StdlibPackFiles :=
  { manifestDependencies := some []
    customizationsQll := some ["import cpp"]
    languageQll := some ["import cpp_impl"] }

/-- Standard library copy without a `Customizations.qll`. -/
def c2FilesSynth : StdlibPackFiles :=
  { manifestDependencies := none
    customizationsQll := none
    languageQll := some ["/** cpp */", "import semmle_cpp"] }

/-- What the stdlib rewrite produces from `c2FilesSynth`. -/
def c2SynthOut : StdlibPackFiles :=
  { manifestDependencies := some [("acme/cpp-ext", "0.1.0")]
    customizationsQll :=
      some ["import cpp", "import acme.cpp_ext.Customizations"]
    languageQll :=
      some ["/** cpp */", "import Customizations", "import semmle_cpp"] }

/-- Bundle copy of `codeql/java-all` version 1.0.0. -/
def c6Std1 : ResolvedPack :=
  .mk ["bundle", "qlpacks", "codeql", "java-all", "1.0.0", "qlpack.yml"]
    { library := true, name := "codeql/java-all", version := ⟨1, 0, 0⟩ }
    .LIBRARY_PACK []

/-- Bundle copy of `codeql/java-all` version 2.0.0 (a later candidate). -/
def c6Std2 : ResolvedPack :=
  .mk ["bundle", "qlpacks", "codeql", "java-all", "2.0.0", "qlpack.yml"]
    { library := true, name := "codeql/java-all", version := ⟨2, 0, 0⟩ }
    .LIBRARY_PACK []

/-- Workspace pack with one dependency both bundle copies satisfy. -/
def c6Ws : CodeQLPack :=
  { path := ["ws", "p", "qlpack.yml"]
    config := { library := false, name := "acme/queries", version := ⟨0, 1, 0⟩
                dependencies := [("codeql/java-all", .wildcard)] } }

/-- The resolver universe: the workspace pack then the two seeds. -/
def c6AllPacks : List UPack :=
  [.plain c6Ws, .seeded c6Std1, .seeded c6Std2]

/-- The resolution the model produces for `c6Ws`: the later candidate wins. -/
def c6Resolved : ResolvedPack :=
  .mk ["ws", "p", "qlpack.yml"] c6Ws.config .QUERY_PACK [c6Std2]

/-- Heap for the C4 counterexample: query pack 1 depends on library pack 2,
which depends on customization pack 3, whose target standard library is 4 —
the query pack depends on the customization pack only transitively. -/
def c4Store : Store :=
  [(1, { config := { library := false, name := "acme/queries"
                     version := ⟨0, 1, 0⟩
                     dependencies := [("acme/lib", .wildcard)] }
         kind := .QUERY_PACK, deps := [2] }),
   (2, { config := { library := true, name := "acme/lib"
                     version := ⟨0, 1, 0⟩
                     dependencies := [("acme/java-ext", .wildcard)] }
         kind := .LIBRARY_PACK, deps := [3] }),
   (3, { config := { library := true, name := "acme/java-ext"
                     version := ⟨0, 1, 0⟩
                     dependencies := [("codeql/java-all", .wildcard)] }
         kind := .CUSTOMIZATION_PACK, deps := [4] }),
   (4, { config := { library := true, name := "codeql/java-all"
                     version := ⟨1, 0, 0⟩ }
         kind := .LIBRARY_PACK, deps := [] })]

/-- Heap where query pack 1 depends on customization pack 3 directly. -/
def c4bStore : Store :=
  [(1, { config := { library := false, name := "acme/queries"
                     version := ⟨0, 1, 0⟩
                     dependencies := [("acme/java-ext", .wildcard)] }
         kind := .QUERY_PACK, deps := [3] }),
   (3, { config := { library := true, name := "acme/java-ext"
                     version := ⟨0, 1, 0⟩
                     dependencies := [("codeql/java-all", .wildcard)] }
         kind := .CUSTOMIZATION_PACK, deps := [4] }),
   (4, { config := { library := true, name := "codeql/java-all"
                     version := ⟨1, 0, 0⟩ }
         kind := .LIBRARY_PACK, deps := [] })]

/-- The planner state `plan_packs 10 [1, 3] [] [1] c4bStore` produces. -/
def c4bPlanned : PlanState :=
  { store :=
      [(1, { config := { library := false, name := "acme/queries"
                         version := ⟨0, 1, 0⟩
                         dependencies := [("acme/java-ext", .wildcard)] }
             kind := .QUERY_PACK, deps := [3, 4] }),
       (3, { config := { library := true, name := "acme/java-ext"
                         version := ⟨0, 1, 0⟩
                         dependencies := [("codeql/java-all", .wildcard)] }
             kind := .CUSTOMIZATION_PACK, deps := [4] }),
       (4, { config := { library := true, name := "codeql/java-all"
                         version := ⟨1, 0, 0⟩ }
             kind := .LIBRARY_PACK, deps := [] })]
    processed := [3, 1]
    stdLibDeps := [(4, [3])]
    sorterCalls := [(1, [3, 4]), (3, []), (4, [3])] }

/-- Heap for the C7 counterexample: an unconstrained workspace QUERY pack 1
named `a/zzz`, a workspace CUSTOMIZATION pack 2 named `a/aaa` targeting the
standard library 3. -/
def c7Store : Store :=
  [(1, { config := { library := false, name := "a/zzz", version := ⟨0, 1, 0⟩ }
         kind := .QUERY_PACK, deps := [] }),
   (2, { config := { library := true, name := "a/aaa", version := ⟨0, 1, 0⟩
                     dependencies := [("codeql/java-all", .wildcard)] }
         kind := .CUSTOMIZATION_PACK, deps := [3] }),
   (3, { config := { library := true, name := "codeql/java-all"
                     version := ⟨1, 0, 0⟩ }
         kind := .LIBRARY_PACK, deps := [] })]

/-- The planner state `plan_packs 10 [1, 2] [] [1, 2] c7Store` produces. -/
def c7Planned : PlanState :=
  { store := c7Store
    processed := [1, 2]
    stdLibDeps := [(3, [2])]
    sorterCalls := [(1, []), (2, []), (3, [2])] }

/-- Decidable equality of `Except` results, for evaluating the models at
concrete inputs. -/
instance {ε α : Type} [DecidableEq ε] [DecidableEq α] :
    DecidableEq (Except ε α) := fun a b =>
  match a, b with
  | .ok x, .ok y =>
    if h : x = y then .isTrue (congrArg Except.ok h)
    else .isFalse (fun hh => h (Except.ok.inj hh))
  | .error x, .error y =>
    if h : x = y then .isTrue (congrArg Except.error h)
    else .isFalse (fun hh => h (Except.error.inj hh))
  | .ok _, .error _ => .isFalse (fun hh => Except.noConfusion hh)
  | .error _, .ok _ => .isFalse (fun hh => Except.noConfusion hh)

/-! Theorems. -/

/-- Sequencing a successful `Except` step. -/
theorem except_bind_ok {ε α β : Type} (a : α) (f : α → Except ε β) :
    (Except.ok a >>= f) = f a := rfl

/-- Sequencing after a raised exception. -/
theorem except_bind_err {ε α β : Type} (e : ε) (f : α → Except ε β) :
    (Except.error e >>= f) = Except.error e := rfl

/-- C5: the classifier returns QUERY when the manifest field `library` is
false or absent (absence is the dataclass default `false`); CUSTOMIZATION
when `library` is true and
`<manifest-parent>/<name with - replaced by _ and / as a path separator>/Customizations.qll`
exists; and LIBRARY otherwise. -/
theorem c5_pack_kind_classification (fs : FsExists) (pack : CodeQLPack) :
    (get_pack_kind fs pack = CodeQLPackKind.QUERY_PACK ↔
      pack.config.library = false) ∧
    (get_pack_kind fs pack = CodeQLPackKind.CUSTOMIZATION_PACK ↔
      (pack.config.library = true ∧
        fs (pathParent pack.path ++
          splitOnChar '/' (replaceChar '-' '_' pack.config.name) ++
          ["Customizations.qll"]) = true)) ∧
    (get_pack_kind fs pack = CodeQLPackKind.LIBRARY_PACK ↔
      (pack.config.library = true ∧
        fs (pathParent pack.path ++
          splitOnChar '/' (replaceChar '-' '_' pack.config.name) ++
          ["Customizations.qll"]) = false)) := by
  have hsplit : (splitOnChar '/' "Customizations.qll") = ["Customizations.qll"] := by decide
  unfold get_pack_kind pathDiv
  rw [hsplit, List.append_assoc]
  rcases hl : pack.config.library <;>
    rcases hf : fs (pathParent pack.path ++
      (splitOnChar '/' (replaceChar '-' '_' pack.config.name) ++
        ["Customizations.qll"])) <;>
    simp [hl, hf]

/-- C9: requesting per-platform archives with at least one platform outside
the bundle's supported set fails with a bundle failure before any archive is
written: no output archive is produced for any platform. -/
theorem c9_unsupported_platform_failure (outputIsDir : Bool)
    (requested supported : List BundlePlatform) (p : BundlePlatform)
    (hp : p ∈ requested) (hns : p ∉ supported) :
    (bundle_run outputIsDir requested supported).1 = [] ∧
    ∃ msg, (bundle_run outputIsDir requested supported).2 =
      some (.bundleException msg) := by
  have hne : requested.isEmpty = false := by
    cases requested with
    | nil => cases hp
    | cons a l => rfl
  have hfil : p ∈ requested.filter (fun q => decide (q ∉ supported)) :=
    List.mem_filter.mpr ⟨hp, by simpa using hns⟩
  have hfne : (requested.filter (fun q => decide (q ∉ supported))).isEmpty
      = false := by
    cases hx : requested.filter (fun q => decide (q ∉ supported)) with
    | nil => rw [hx] at hfil; cases hfil
    | cons a l => rfl
  have key : bundle_run outputIsDir requested supported =
      ([], some (.bundleException
        (if !outputIsDir then "output path must be a directory"
         else "unsupported platforms specified"))) := by
    unfold bundle_run
    cases outputIsDir with
    | false => simp [hne]
    | true =>
      simp [hne, hfne]
      exact ⟨p, hp, hns⟩
  rw [key]
  exact ⟨rfl, _, rfl⟩

/-- Witness for C9 at a concrete input. -/
theorem c9_unsupported_platform_failure_witness :
    BundlePlatform.WINDOWS ∈ [BundlePlatform.WINDOWS] ∧
    BundlePlatform.WINDOWS ∉ [BundlePlatform.LINUX] ∧
    ((bundle_run true [BundlePlatform.WINDOWS] [BundlePlatform.LINUX]).1 = []
      ∧ ∃ msg, (bundle_run true [BundlePlatform.WINDOWS]
        [BundlePlatform.LINUX]).2 = some (.bundleException msg)) :=
  ⟨by decide, by decide,
    c9_unsupported_platform_failure true [BundlePlatform.WINDOWS]
      [BundlePlatform.LINUX] BundlePlatform.WINDOWS (by decide) (by decide)⟩

/-- C10: recreating a `codeql`-scope query pack unconditionally deletes the
copy's lock file and `.codeql` directory — a missing lock file or `.codeql`
directory raises an uncaught `FileNotFoundError` (not a `BundleException`) —
while a missing `.cache` directory is tolerated and recreation proceeds. -/
theorem c10_query_pack_cleanup_errors (env : AddPacksEnv)
    (pack : ResolvedPack)
    (hscope : pack.config.get_scope = some "codeql") :
    ((env.queryPackFs pack.config.name).hasLockFile = false →
      bundle_query_pack env pack =
        .error (.fileNotFoundError "codeql-pack.lock.yml")) ∧
    ((env.queryPackFs pack.config.name).hasLockFile = true →
      (env.queryPackFs pack.config.name).hasDependenciesDir = false →
      bundle_query_pack env pack = .error (.fileNotFoundError ".codeql")) ∧
    ((env.queryPackFs pack.config.name).hasLockFile = true →
      (env.queryPackFs pack.config.name).hasDependenciesDir = true →
      invokePackCreate env pack [] = .ok () →
      bundle_query_pack env pack = .ok ⟨false, false, false⟩) := by
  refine ⟨fun h1 => ?_, fun h1 h2 => ?_, fun h1 h2 h3 => ?_⟩
  · simp [bundle_query_pack, hscope, h1, except_bind_err, except_bind_ok]
  · simp [bundle_query_pack, hscope, h1, h2, except_bind_err, except_bind_ok]
  · simp [bundle_query_pack, hscope, h1, h2, h3, except_bind_err,
      except_bind_ok]

/-- Witness for C10: a pack whose copy lacks the lock file. -/
theorem c10_query_pack_cleanup_errors_witness :
    exStdQueryPack.config.get_scope = some "codeql" ∧
    bundle_query_pack
      { exEnv with queryPackFs := fun _ => ⟨false, true, false⟩ }
      exStdQueryPack =
      .error (.fileNotFoundError "codeql-pack.lock.yml") :=
  ⟨by decide,
    (c10_query_pack_cleanup_errors
      { exEnv with queryPackFs := fun _ => ⟨false, true, false⟩ }
      exStdQueryPack (by decide)).1 rfl⟩

/-- Every `pack_bundle` invocation of `add_packs` passes the keyword argument
`disable_precompilation`, which the signature cannot bind: the call raises
`TypeError` before the method body runs. -/
theorem invokePackBundle_kwarg (env : AddPacksEnv) (pack : ResolvedPack) :
    invokePackBundle env pack ["disable_precompilation"] =
      .error (.typeError "disable_precompilation") := rfl

/-- C1 (the code at the failing input): `bundle_customization_pack` rewrites
the staged copy's manifest so its dependencies mapping is empty, but the
subsequent `pack_bundle` invocation passes the unbindable keyword argument
`disable_precompilation` and raises `TypeError`, so the rewritten copy is
never bundled into the bundle's `qlpacks` directory. -/
theorem c1_customization_pack_bundle_type_error (env : AddPacksEnv)
    (pack : ResolvedPack) :
    bundle_customization_pack env pack =
      ([], .error (.typeError "disable_precompilation")) := rfl

/-- C3: `pack_bundle`'s signature binds no keyword `disable_precompilation`,
and for any composition order `qs ++ p :: rest` whose prefix `qs` consists of
successfully processed QUERY packs and whose first non-query pack is `p`,
`add_packs` stops at `p` with exactly that `TypeError` (for a `codeql`-scope
LIBRARY pack the file rewrites are assumed to succeed; they precede the
failing invocation). -/
theorem c3_pack_bundle_kwarg_type_error (env : AddPacksEnv)
    (qs : List ResolvedPack) (p : ResolvedPack) (rest : List ResolvedPack)
    (hqok : ∀ q ∈ qs, q.kind = CodeQLPackKind.QUERY_PACK ∧
      process_sorted_pack env q = .ok ())
    (hp : p.kind ≠ CodeQLPackKind.QUERY_PACK)
    (hstd : p.kind = CodeQLPackKind.LIBRARY_PACK →
      p.config.get_scope = some "codeql" →
      ∃ files, bundle_stdlib_pack_rewrite p.config
        (env.stdLibDepsOf p.config.name) (env.filesOf p.config.name) =
          .ok files) :
    ("disable_precompilation" ∉ pack_bundle_sig.posNames ∧
      pack_bundle_sig.hasVarKeyword = false) ∧
    add_packs_process env (qs ++ p :: rest) =
      (qs.map (fun q => q.config.name),
        some (.typeError "disable_precompilation")) := by
  refine ⟨⟨by decide, rfl⟩, ?_⟩
  induction qs with
  | nil =>
    have hfail : process_sorted_pack env p =
        .error (.typeError "disable_precompilation") := by
      rcases hk : p.kind with _ | _ | _
      · exact absurd hk hp
      · rcases hsc : (p.config.get_scope == some "codeql") with _ | _
        · simp [process_sorted_pack, hk, bundle_library_pack, hsc,
            invokePackBundle_kwarg]
        · obtain ⟨files, hfiles⟩ := hstd hk (eq_of_beq hsc)
          simp [process_sorted_pack, hk, hsc, bundle_stdlib_pack_run, hfiles,
            invokePackBundle_kwarg, except_bind_ok]
      · simp [process_sorted_pack, hk, bundle_customization_pack,
          invokePackBundle_kwarg]
    simp [add_packs_process, hfail]
  | cons q qs ih =>
    have hq := hqok q (List.mem_cons_self q qs)
    have ih' := ih (fun q' hq' => hqok q' (List.mem_cons_of_mem q hq'))
    simp [add_packs_process, hq.2, ih']

/-- Witness for C3: one successfully processed workspace query pack followed
by a customization pack; the loop stops at the customization pack with the
`TypeError`. -/
theorem c3_pack_bundle_kwarg_type_error_witness :
    (∀ q ∈ [exQueryPack], q.kind = CodeQLPackKind.QUERY_PACK ∧
      process_sorted_pack exEnv q = .ok ()) ∧
    add_packs_process exEnv ([exQueryPack] ++ exCustPack :: []) =
      (["acme/queries"], some (.typeError "disable_precompilation")) :=
  ⟨by decide,
    (c3_pack_bundle_kwarg_type_error exEnv [exQueryPack] exCustPack []
      (by decide) (by decide)
      (fun h _ => absurd h (by decide))).2⟩

/-- Ordered-mapping update then lookup at the same key. -/
theorem dictGet_dictSet_self (d : List (String × String)) (k v : String) :
    dictGet (dictSet d k v) k = some v := by
  induction d with
  | nil => simp [dictSet, dictGet]
  | cons e rest ih =>
    rcases e with ⟨k0, v0⟩
    by_cases h : k0 = k
    · subst h
      simp [dictSet, dictGet]
    · simp [dictSet, dictGet, h, ih]

/-- Ordered-mapping update then lookup at a different key. -/
theorem dictGet_dictSet_ne (d : List (String × String)) (k v k' : String)
    (h : k' ≠ k) :
    dictGet (dictSet d k v) k' = dictGet d k' := by
  induction d with
  | nil =>
    simp only [dictSet, dictGet]
    rw [if_neg (fun hh => h hh.symm)]
  | cons e rest ih =>
    rcases e with ⟨k0, v0⟩
    by_cases he : k0 = k
    · subst he
      simp only [dictSet, if_pos rfl, dictGet]
      rw [if_neg (fun hh => h hh.symm), if_neg (fun hh => h hh.symm)]
    · simp only [dictSet, if_neg he, dictGet]
      by_cases hk0 : k0 = k'
      · rw [if_pos hk0, if_pos hk0]
      · rw [if_neg hk0, if_neg hk0, ih]

/-- Folding manifest updates for names not among the keys leaves a key
unread. -/
theorem foldl_dictSet_not_mem (cs : List CodeQLPackConfig)
    (d : List (String × String)) (k : String)
    (hk : k ∉ cs.map (fun c => c.name)) :
    dictGet (cs.foldl (fun d c => dictSet d c.name c.version.toStr) d) k =
      dictGet d k := by
  induction cs generalizing d with
  | nil => rfl
  | cons c rest ih =>
    simp only [List.map_cons, List.mem_cons] at hk
    push_neg at hk
    simp only [List.foldl_cons]
    rw [ih _ hk.2, dictGet_dictSet_ne _ _ _ _ hk.1]

/-- After folding the manifest updates of `bundle_stdlib_pack`, every
customization pack (with distinct names) maps to the string form of its
version. -/
theorem foldl_dictSet_mem (cs : List CodeQLPackConfig)
    (d : List (String × String)) (c : CodeQLPackConfig) (hc : c ∈ cs)
    (hnd : (cs.map (fun c => c.name)).Nodup) :
    dictGet (cs.foldl (fun d c => dictSet d c.name c.version.toStr) d)
      c.name = some c.version.toStr := by
  induction cs generalizing d with
  | nil => cases hc
  | cons c0 rest ih =>
    simp only [List.map_cons, List.nodup_cons] at hnd
    rcases List.mem_cons.mp hc with h | h
    · subst h
      simp only [List.foldl_cons]
      rw [foldl_dictSet_not_mem rest _ _ hnd.1, dictGet_dictSet_self]
    · exact ih _ h hnd.2

/-- A successful `findIdx?` splits the list at the first satisfying
element. -/
theorem findIdxSplit {p : String → Bool} {l : List String} {i : Nat}
    (h : l.findIdx? p = some i) :
    ∃ pre a post, l = pre ++ a :: post ∧ pre.length = i ∧
      (∀ x ∈ pre, p x = false) ∧ p a = true := by
  induction l generalizing i with
  | nil => simp at h
  | cons x xs ih =>
    rw [List.findIdx?_cons] at h
    by_cases hp : p x
    · rw [if_pos hp] at h
      cases h
      exact ⟨[], x, xs, rfl, rfl, by simp, hp⟩
    · rw [if_neg hp] at h
      simp only [Nat.zero_add, List.findIdx?_start_succ] at h
      rcases Option.map_eq_some'.mp h with ⟨i', hi', rfl⟩
      obtain ⟨pre, a, post, heq, hlen, hpre, hpa⟩ := ih hi'
      refine ⟨x :: pre, a, post, by simp [heq], by simp [hlen], ?_, hpa⟩
      intro y hy
      rcases List.mem_cons.mp hy with rfl | hy
      · simpa using hp
      · exact hpre y hy

/-- Inserting at the split point puts the new element immediately before the
second part. -/
theorem insertIdx_split (pre post : List String) (a : String) :
    (pre ++ post).insertIdx pre.length a = pre ++ a :: post := by
  induction pre with
  | nil => rfl
  | cons x pre ih =>
    simpa [List.insertIdx_succ_cons] using ih

/-- C2 (amended): after the stdlib rewrite succeeds, the manifest maps each
customization pack to the exact string of its version; `Customizations.qll`
contains one `import <module>.Customizations` line per customization pack;
when `Customizations.qll` had to be synthesized, `import Customizations` is
inserted into `<language>.qll` immediately before the first existing import
line and `Customizations.qll` is created with the sole line
the line `import <language>` before the per-customization
lines are appended;
when `Customizations.qll` already existed, `<language>.qll` is left
unchanged (the implementation does not establish the claim's unconditional
the property `import Customizations precedes all other
module lines` in that case). -/
theorem c2_stdlib_rewrite_amended (config : CodeQLPackConfig)
    (cs : List CodeQLPackConfig) (files files' : StdlibPackFiles)
    (hok : bundle_stdlib_pack_rewrite config cs files = .ok files')
    (hnd : (cs.map (fun c => c.name)).Nodup) :
    (∀ c ∈ cs, dictGet (files'.manifestDependencies.getD []) c.name =
      some c.version.toStr) ∧
    (∀ c ∈ cs, ("import " ++ get_module_name c.name ++ ".Customizations") ∈
      files'.customizationsQll.getD []) ∧
    (files.customizationsQll = none →
      ∃ pre imp post,
        files.languageQll = some (pre ++ imp :: post) ∧
        (∀ l ∈ pre, strStartsWith l "import" = false) ∧
        strStartsWith imp "import" = true ∧
        files'.languageQll =
          some (pre ++ "import Customizations" :: imp :: post) ∧
        files'.customizationsQll =
          some (("import " ++ removeSuffix config.get_pack_name "-all") ::
            cs.map (fun c =>
              "import " ++ get_module_name c.name ++ ".Customizations"))) ∧
    (files.customizationsQll ≠ none →
      files'.languageQll = files.languageQll) := by
  obtain ⟨md, cq, lq⟩ := files
  simp only [bundle_stdlib_pack_rewrite] at hok
  rcases cq with _ | lines
  · -- synthesized case
    simp only [Option.isSome_none, Bool.false_eq_true, if_false,
      add_customization_support] at hok
    by_cases hsl : (!(config.get_scope == some "codeql") || !config.library)
        = true
    · rw [if_pos hsl] at hok
      simp only [except_bind_ok] at hok
      simp at hok
    · rw [if_neg hsl] at hok
      rcases lq with _ | lqLines
      · simp only [except_bind_err] at hok
        exact Except.noConfusion hok
      · rcases hidx : lqLines.findIdx?
            (fun l => strStartsWith l "import") with _ | idx
        · simp only [hidx, except_bind_err] at hok
          exact Except.noConfusion hok
        · simp only [hidx, except_bind_ok] at hok
          obtain ⟨pre, a, post, heq, hlen, hpre, hpa⟩ := findIdxSplit hidx
          cases hok
          refine ⟨?_, ?_, ?_, ?_⟩
          · intro c hcs
            exact foldl_dictSet_mem cs _ c hcs hnd
          · intro c hcs
            exact List.mem_cons_of_mem _
              (List.mem_map_of_mem
                (fun c => "import " ++ get_module_name c.name ++
                  ".Customizations") hcs)
          · intro _
            refine ⟨pre, a, post, by rw [heq], hpre, hpa, ?_, rfl⟩
            show some (lqLines.insertIdx idx "import Customizations") = _
            rw [heq, ← hlen, insertIdx_split]
          · intro hne
            exact absurd rfl hne
  · -- `Customizations.qll` already exists
    simp only [Option.isSome_some, if_true, except_bind_ok] at hok
    cases hok
    refine ⟨?_, ?_, ?_, ?_⟩
    · intro c hcs
      exact foldl_dictSet_mem cs _ c hcs hnd
    · intro c hcs
      exact List.mem_append_right _
        (List.mem_map_of_mem
          (fun c => "import " ++ get_module_name c.name ++
            ".Customizations") hcs)
    · intro hnone
      exact Option.noConfusion hnone
    · intro _
      rfl

/-- Counterexample to C2 as stated: a standard library whose copy already
ships `Customizations.qll` but whose language module lacks an
an `import Customizations` line is processed successfully, and its language
module is left without `import Customizations` even though it has another
other import line. -/
theorem c2_language_module_counterexample :
    bundle_stdlib_pack_rewrite c2Config [c2Cust] c2FilesPre =
      .ok { manifestDependencies := some [("acme/cpp-ext", "0.1.0")]
            customizationsQll :=
              some ["import cpp", "import acme.cpp_ext.Customizations"]
            languageQll := some ["import cpp_impl"] } ∧
    "import Customizations" ∉ (["import cpp_impl"] : List String) ∧
    strStartsWith "import cpp_impl" "import" = true :=
  ⟨by decide, by decide, by decide⟩

/-- Witness for the amended C2 in the synthesized case. -/
theorem c2_stdlib_rewrite_amended_witness :
    bundle_stdlib_pack_rewrite c2Config [c2Cust] c2FilesSynth =
      .ok c2SynthOut ∧
    (∀ c ∈ [c2Cust],
      ("import " ++ get_module_name c.name ++ ".Customizations") ∈
        c2SynthOut.customizationsQll.getD []) :=
  ⟨by decide,
    (c2_stdlib_rewrite_amended c2Config [c2Cust] c2FilesSynth c2SynthOut
      (by decide) (by decide)).2.1⟩

/-- Python `==` on candidate packs only identifies packs with equal path and
manifest. -/
theorem upack_beq_fields {u v : UPack} (h : UPack.beq u v = true) :
    u.path = v.path ∧ u.config = v.config := by
  cases u with
  | plain p =>
    cases v with
    | plain q =>
      have : p = q := eq_of_beq h
      subst this
      exact ⟨rfl, rfl⟩
    | seeded s => simp [UPack.beq] at h
  | seeded r =>
    cases v with
    | plain q => simp [UPack.beq] at h
    | seeded s =>
      rcases r with ⟨rp, rc, rk, rd⟩
      rcases s with ⟨sp, sc, sk, sd⟩
      simp only [UPack.beq, ResolvedPack.beq, Bool.and_eq_true] at h
      obtain ⟨⟨⟨h1, h2⟩, _⟩, _⟩ := h
      exact ⟨eq_of_beq h1, eq_of_beq h2⟩

/-- A hit in a well-formed memo keeps path and manifest. -/
theorem memoLookup_wf {memo : Memo} (hwf : MemoWf memo) {u : UPack}
    {r : ResolvedPack} (h : memoLookup memo u = some r) :
    r.path = u.path ∧ r.config = u.config := by
  induction memo with
  | nil => cases h
  | cons e rest ih =>
    rcases e with ⟨k, v⟩
    simp only [memoLookup] at h
    by_cases hb : UPack.beq k u = true
    · rw [if_pos hb] at h
      cases h
      have hk := hwf k r (List.mem_cons_self _ _)
      obtain ⟨hp, hcfg⟩ := upack_beq_fields hb
      exact ⟨hk.1.trans hp, hk.2.trans hcfg⟩
    · rw [if_neg hb] at h
      exact ih (fun k' v' hm => hwf k' v' (List.mem_cons_of_mem _ hm)) h

/-- Joint soundness of the resolver workers at every fuel: successful
resolutions keep path and manifest, candidate scanning is the claim's
last-satisfying selection, and entry resolution yields one dependency per
declared entry in declaration order. -/
theorem resolverSound (fs : FsExists) (cands : String → List UPack)
    (root : UPack) :
    ∀ fuel, InnerP fs cands root fuel ∧ ScanP fs cands root fuel ∧
      EntriesP fs cands root fuel := by
  intro fuel
  induction fuel with
  | zero =>
    refine ⟨?_, ?_, ?_⟩
    · intro u memo rp m' h _
      simp [resolveInner] at h
    · intro c l acc memo res m' h _
      simp [scanCandidates] at h
    · intro entries memo rs m' h _
      simp [resolveEntries] at h
  | succ f ih =>
    obtain ⟨ihI, ihS, ihE⟩ := ih
    refine ⟨?_, ?_, ?_⟩
    · intro u memo rp m' h hwf
      cases u with
      | seeded r =>
        simp only [resolveInner] at h
        cases h
        exact ⟨rfl, rfl, hwf⟩
      | plain p =>
        simp only [resolveInner] at h
        cases hml : memoLookup memo (.plain p) with
        | some r0 =>
          rw [hml] at h
          cases h
          obtain ⟨hp, hcfg⟩ := memoLookup_wf hwf hml
          exact ⟨hp, hcfg, hwf⟩
        | none =>
          rw [hml] at h
          cases hent : resolveEntries fs cands root f
              p.config.dependencies memo with
          | error e' =>
            rw [hent] at h
            cases h
          | ok pr =>
            rcases pr with ⟨deps, memo₁⟩
            rw [hent] at h
            simp only [except_bind_ok] at h
            cases h
            obtain ⟨hwf₁, _, _⟩ :=
              ihE p.config.dependencies memo deps memo₁ hent hwf
            refine ⟨rfl, rfl, ?_⟩
            intro k v hm
            rcases List.mem_cons.mp hm with hh | hh
            · cases hh
              exact ⟨rfl, rfl⟩
            · exact hwf₁ k v hh
    · intro c l acc memo res m' h hwf
      cases l with
      | nil =>
        simp only [scanCandidates] at h
        cases h
        exact ⟨hwf, rfl⟩
      | cons cand rest =>
        simp only [scanCandidates] at h
        by_cases hr : UPack.beq cand root = true
        · rw [if_pos hr] at h
          cases h
        · rw [if_neg hr] at h
          by_cases hm : (c.matches cand.version) = true
          · rw [if_pos hm] at h
            cases hres : resolveInner fs cands root f cand memo with
            | error e =>
              rw [hres] at h
              cases h
            | ok pr =>
              rcases pr with ⟨r, memo₁⟩
              rw [hres] at h
              simp only [except_bind_ok] at h
              obtain ⟨hp, hcfg, hwf₁⟩ := ihI cand memo r memo₁ hres hwf
              have hrec := ihS c rest (some r) memo₁ res m' h hwf₁
              refine ⟨hrec.1, ?_⟩
              have hrest := hrec.2
              simp only [lastSatisfying]
              cases hls : lastSatisfying c rest with
              | some w =>
                rw [hls] at hrest
                exact hrest
              | none =>
                rw [hls] at hrest
                rw [if_pos hm]
                exact ⟨r, hrest, hp, hcfg⟩
          · rw [if_neg hm] at h
            have hrec := ihS c rest acc memo res m' h hwf
            refine ⟨hrec.1, ?_⟩
            have hrest := hrec.2
            simp only [lastSatisfying]
            cases hls : lastSatisfying c rest with
            | some w =>
              rw [hls] at hrest
              exact hrest
            | none =>
              rw [hls] at hrest
              rw [if_neg hm]
              exact hrest
    · intro entries memo rs m' h hwf
      cases entries with
      | nil =>
        simp only [resolveEntries] at h
        cases h
        exact ⟨hwf, rfl, fun i hi => absurd hi (Nat.not_lt_zero i)⟩
      | cons e rest =>
        rcases e with ⟨depName, depC⟩
        simp only [resolveEntries] at h
        cases hscan : scanCandidates fs cands root f depC (cands depName)
            none memo with
        | error e' =>
          rw [hscan] at h
          cases h
        | ok pr =>
          rcases pr with ⟨found, memo₁⟩
          rw [hscan] at h
          simp only [except_bind_ok] at h
          have hs := ihS depC (cands depName) none memo found memo₁ hscan hwf
          cases found with
          | none => cases h
          | some rp =>
            cases hrest : resolveEntries fs cands root f rest memo₁ with
            | error e' =>
              rw [hrest] at h
              cases h
            | ok pr₂ =>
              rcases pr₂ with ⟨others, memo₂⟩
              rw [hrest] at h
              simp only [except_bind_ok, Except.ok.injEq, Prod.mk.injEq] at h
              obtain ⟨h1, h2⟩ := h
              subst h1
              subst h2
              obtain ⟨hwf₂, hlen, hidx⟩ := ihE rest memo₁ others memo₂ hrest hs.1
              refine ⟨hwf₂, by simp [hlen], ?_⟩
              intro i hi hri
              cases i with
              | zero =>
                have hmatch := hs.2
                cases hls : lastSatisfying depC (cands depName) with
                | some w =>
                  rw [hls] at hmatch
                  obtain ⟨rp', hrp', hp, hcfg⟩ := hmatch
                  cases hrp'
                  exact ⟨w, hls, hp, hcfg⟩
                | none =>
                  rw [hls] at hmatch
                  cases hmatch
              | succ i =>
                exact hidx i (Nat.lt_of_succ_lt_succ hi)
                  (Nat.lt_of_succ_lt_succ hri)

/-- C6: on a successful resolution, the resolver produces exactly one
resolved dependency per declared entry, in declaration order, and each one
is the last candidate in candidate-list order whose version satisfies the
entry's constraint. -/
theorem c6_resolver_last_match (fs : FsExists) (allPacks : List UPack)
    (fuel : Nat) (p : CodeQLPack) (rp : ResolvedPack) (m' : Memo)
    (hok : resolvePack fs allPacks fuel (.plain p) = .ok (rp, m')) :
    rp.dependencies.length = p.config.dependencies.length ∧
    ∀ i (hi : i < p.config.dependencies.length)
      (hri : i < rp.dependencies.length),
      ∃ w, lastSatisfying (p.config.dependencies.get ⟨i, hi⟩).2
          (candidatesOf allPacks (p.config.dependencies.get ⟨i, hi⟩).1) =
        some w ∧
        (rp.dependencies.get ⟨i, hri⟩).path = w.path ∧
        (rp.dependencies.get ⟨i, hri⟩).config = w.config := by
  unfold resolvePack at hok
  cases fuel with
  | zero => simp [resolveInner] at hok
  | succ f =>
    simp only [resolveInner, memoLookup] at hok
    cases hent : resolveEntries fs (candidatesOf allPacks) (.plain p) f
        p.config.dependencies [] with
    | error e' =>
      rw [hent] at hok
      cases hok
    | ok pr =>
      rcases pr with ⟨deps, memo₁⟩
      rw [hent] at hok
      simp only [except_bind_ok] at hok
      cases hok
      obtain ⟨_, hlen, hidx⟩ :=
        (resolverSound fs (candidatesOf allPacks) (.plain p) f).2.2
          p.config.dependencies [] deps memo₁ hent
          (fun k v hm => absurd hm (List.not_mem_nil _))
      exact ⟨hlen, hidx⟩

/-- Witness for C6: two bundle copies of `codeql/java-all` satisfy the
workspace pack's constraint; the resolver picks the later (last) one. -/
theorem c6_resolver_last_match_witness :
    resolvePack (fun _ => false) c6AllPacks 5 (.plain c6Ws) =
      .ok (c6Resolved, [(.plain c6Ws, c6Resolved)]) ∧
    c6Resolved.dependencies.length = c6Ws.config.dependencies.length :=
  ⟨by rfl,
    (c6_resolver_last_match (fun _ => false) c6AllPacks 5 c6Ws c6Resolved
      [(.plain c6Ws, c6Resolved)] (by rfl)).1⟩

/-- A successful heap lookup is an entry of the heap. -/
theorem storeGet_mem {s : Store} {n : NodeId} {node : PackNode}
    (h : storeGet s n = some node) : (n, node) ∈ s := by
  induction s with
  | nil => cases h
  | cons e rest ih =>
    rcases e with ⟨i, nd⟩
    simp only [storeGet] at h
    by_cases hi : i = n
    · subst hi
      rw [if_pos rfl] at h
      cases h
      exact List.mem_cons_self _ _
    · rw [if_neg hi] at h
      exact List.mem_cons_of_mem _ (ih h)

/-- The executable `wfStore` check implies the propositional safety of
customization targets. -/
theorem wfStore_safe {s : Store} (h : wfStore s = true) : CustTargetsSafe s := by
  intro c node hget hkind std hstd stdN hstdN
  have hmem := storeGet_mem hget
  have hall := (List.all_eq_true.mp h) (c, node) hmem
  simp only [hkind, hstd, hstdN] at hall
  intro hk
  simp [hk] at hall

theorem storeGet_storeSet_self {s : Store} {n : NodeId} {node : PackNode}
    (h : storeGet s n = some node) (v : PackNode) :
    storeGet (storeSet s n v) n = some v := by
  induction s with
  | nil => cases h
  | cons e rest ih =>
    rcases e with ⟨i, nd⟩
    simp only [storeGet, storeSet] at *
    by_cases hi : i = n
    · subst hi
      simp [storeGet]
    · rw [if_neg hi] at h
      simp only [if_neg hi, storeGet, if_neg hi]
      exact ih h

theorem storeGet_storeSet_ne (s : Store) (n : NodeId) (v : PackNode)
    {m : NodeId} (h : m ≠ n) :
    storeGet (storeSet s n v) m = storeGet s m := by
  induction s with
  | nil => rfl
  | cons e rest ih =>
    rcases e with ⟨i, nd⟩
    simp only [storeSet]
    by_cases hi : i = n
    · subst hi
      simp only [if_pos rfl, storeGet]
      rw [if_neg (fun hh => h hh.symm), if_neg (fun hh => h hh.symm)]
    · simp only [if_neg hi, storeGet]
      by_cases him : i = m
      · rw [if_pos him, if_pos him]
      · rw [if_neg him, if_neg him]
        exact ih

theorem storeEvolves_refl (s : Store) : StoreEvolves s s :=
  ⟨fun _ => Iff.rfl, fun _ node h =>
    ⟨node, h, rfl, rfl, ⟨[], by simp, by simp⟩, fun _ => rfl⟩⟩

/-- Registered ids stay registered backwards along an evolution. -/
theorem storeEvolves_back {s s' : Store} (hse : StoreEvolves s s')
    {n : NodeId} {node' : PackNode} (h : storeGet s' n = some node') :
    ∃ node, storeGet s n = some node := by
  cases hs : storeGet s n with
  | some node => exact ⟨node, rfl⟩
  | none =>
    rw [(hse.1 n).mp hs] at h
    cases h

/-- Everything `StoreEvolves` promises, packaged from the evolved side. -/
theorem kindEvolves {s s' : Store} (hse : StoreEvolves s s')
    {n : NodeId} {node' : PackNode} (h' : storeGet s' n = some node') :
    ∃ node, storeGet s n = some node ∧ node'.config = node.config ∧
      node'.kind = node.kind ∧
      (∃ t, node'.deps = node.deps ++ t ∧
        ∀ x ∈ t, ∀ nodex, storeGet s' x = some nodex →
          nodex.kind ≠ CodeQLPackKind.CUSTOMIZATION_PACK) ∧
      (node.kind ≠ CodeQLPackKind.QUERY_PACK → node'.deps = node.deps) := by
  obtain ⟨node, h⟩ := storeEvolves_back hse h'
  obtain ⟨node'', h'', hc, hk, hd, hnq⟩ := hse.2 n node h
  rw [h'] at h''
  cases h''
  exact ⟨node, h, hc, hk, hd, hnq⟩

theorem storeEvolves_trans {s s' s'' : Store} (h1 : StoreEvolves s s')
    (h2 : StoreEvolves s' s'') : StoreEvolves s s'' := by
  refine ⟨fun n => (h1.1 n).trans (h2.1 n), ?_⟩
  intro n node hget
  obtain ⟨node', hget', hc1, hk1, ⟨t1, hd1, ht1⟩, hnq1⟩ := h1.2 n node hget
  obtain ⟨node'', hget'', hc2, hk2, ⟨t2, hd2, ht2⟩, hnq2⟩ := h2.2 n node' hget'
  refine ⟨node'', hget'', hc2.trans hc1, hk2.trans hk1,
    ⟨t1 ++ t2, by rw [hd2, hd1, List.append_assoc], ?_⟩, ?_⟩
  · intro x hx nodex hgx
    rcases List.mem_append.mp hx with hx1 | hx2
    · obtain ⟨nx, hnx, _, hknx, _, _⟩ := kindEvolves h2 hgx
      rw [hknx]
      exact ht1 x hx1 nx hnx
    · exact ht2 x hx2 nodex hgx
  · intro hnq
    rw [hnq2 (by rw [hk1]; exact hnq), hnq1 hnq]

/-- Safety of customization targets survives heap evolution. -/
theorem custTargetsSafe_evolves {s s' : Store} (hse : StoreEvolves s s')
    (hw : CustTargetsSafe s) : CustTargetsSafe s' := by
  intro c node' hget' hkind std hstd stdN' hstdN'
  obtain ⟨nodec, hgetc, _, hkc, _, hnqc⟩ := kindEvolves hse hget'
  have hkindc : nodec.kind = CodeQLPackKind.CUSTOMIZATION_PACK := by
    rw [← hkc, hkind]
  have hdepsc : node'.deps = nodec.deps :=
    hnqc (by rw [hkindc]; intro hh; cases hh)
  obtain ⟨stdN, hgetStd, _, hkStd, _, _⟩ := kindEvolves hse hstdN'
  rw [hkStd]
  exact hw c nodec hgetc hkindc std (by rw [← hdepsc]; exact hstd) stdN hgetStd

/-- Dependency membership survives heap evolution. -/
theorem memEvolves {s s' : Store} (hse : StoreEvolves s s')
    {n : NodeId} {node : PackNode} (h : storeGet s n = some node)
    {x : NodeId} (hx : x ∈ node.deps) :
    ∀ node', storeGet s' n = some node' → x ∈ node'.deps := by
  intro node' h'
  obtain ⟨node'', hget'', _, _, ⟨t, hdeps, _⟩, _⟩ := hse.2 n node h
  rw [h'] at hget''
  cases hget''
  rw [hdeps]
  exact List.mem_append_left _ hx

/-- One completion step: appending a non-customization target to the
(QUERY) pack being completed evolves the heap. -/
theorem storeEvolves_append {s : Store} {pid : NodeId} {pnode : PackNode}
    (hget : storeGet s pid = some pnode)
    (hq : pnode.kind = CodeQLPackKind.QUERY_PACK) {std : NodeId}
    (hsafe : ∀ nodex, storeGet s std = some nodex →
      nodex.kind ≠ CodeQLPackKind.CUSTOMIZATION_PACK) :
    StoreEvolves s (storeSet s pid { pnode with deps := pnode.deps ++ [std] }) := by
  constructor
  · intro n
    by_cases hn : n = pid
    · subst hn
      rw [storeGet_storeSet_self hget]
      simp [hget]
    · rw [storeGet_storeSet_ne s pid _ hn]
  · intro n node hn
    by_cases hpn : n = pid
    · subst hpn
      rw [hn] at hget
      cases hget
      refine ⟨_, storeGet_storeSet_self hn _, rfl, rfl,
        ⟨[std], rfl, ?_⟩, ?_⟩
      · intro x hx nodex hgx
        have hxs : x = std := List.mem_singleton.mp hx
        rw [hxs] at hgx
        by_cases hsp : std = n
        · subst hsp
          rw [storeGet_storeSet_self hn] at hgx
          cases hgx
          rw [hq]
          intro hh
          cases hh
        · rw [storeGet_storeSet_ne s n _ hsp] at hgx
          exact hsafe nodex hgx
      · intro hnq
        exact absurd hq hnq
    · rw [storeGet_storeSet_ne s pid _ hpn]
      exact ⟨node, hn, rfl, rfl, ⟨[], by simp, by simp⟩, fun _ => rfl⟩

/-- Soundness of the dependency-completion loop: the heap evolves and each
scanned customization pack's first dependency ends up in the completed
pack's dependency list. -/
theorem complete_loop_sound {s : Store} {pid : NodeId} {pnode : PackNode}
    (hpid : storeGet s pid = some pnode)
    (hq : pnode.kind = CodeQLPackKind.QUERY_PACK)
    (hw : CustTargetsSafe s) :
    ∀ (custs : List NodeId)
      (hcusts : ∀ c ∈ custs, ∃ nodec, storeGet s c = some nodec ∧
        nodec.kind = CodeQLPackKind.CUSTOMIZATION_PACK)
      (s₀ s' : Store), complete_loop pid custs s₀ = .ok s' →
      StoreEvolves s s₀ →
      StoreEvolves s₀ s' ∧
      ∀ c ∈ custs, ∀ nodec, storeGet s c = some nodec →
        ∀ std, nodec.deps.head? = some std →
        ∀ pn', storeGet s' pid = some pn' → std ∈ pn'.deps := by
  intro custs
  induction custs with
  | nil =>
    intro _ s₀ s' hok _
    cases hok
    exact ⟨storeEvolves_refl _, fun c hc => absurd hc (List.not_mem_nil c)⟩
  | cons c cs ih =>
    intro hcusts s₀ s' hok hse₀
    obtain ⟨nodec, hgetc, hkc⟩ := hcusts c (List.mem_cons_self c cs)
    obtain ⟨nodec₀, hgetc₀, _, hkc₀, ⟨tc, hdc, _⟩, hnqc₀⟩ :=
      hse₀.2 c nodec hgetc
    have hdepsc₀ : nodec₀.deps = nodec.deps :=
      hnqc₀ (by rw [hkc]; intro hh; cases hh)
    obtain ⟨pn₀, hgetp₀, _, hkp₀, _, _⟩ := hse₀.2 pid pnode hpid
    simp only [complete_loop, hgetc₀] at hok
    cases hhd : nodec.deps.head? with
    | none =>
      simp only [hdepsc₀, hhd] at hok
      exact Except.noConfusion hok
    | some std =>
      simp only [hdepsc₀, hhd, hgetp₀] at hok
      have hsafe₀ : CustTargetsSafe s₀ := custTargetsSafe_evolves hse₀ hw
      have hstdSafe : ∀ nodex, storeGet s₀ std = some nodex →
          nodex.kind ≠ CodeQLPackKind.CUSTOMIZATION_PACK := by
        intro nodex hgx
        exact hsafe₀ c nodec₀ hgetc₀ (by rw [hkc₀, hkc]) std
          (by rw [hdepsc₀, hhd]) nodex hgx
      by_cases hmem : std ∈ pn₀.deps
      · rw [if_pos hmem] at hok
        have hrec := ih (fun x hx => hcusts x (List.mem_cons_of_mem c hx))
          s₀ s' hok hse₀
        refine ⟨hrec.1, ?_⟩
        intro c' hc' nodec' hgetc' std' hstd' pn' hpn'
        rcases List.mem_cons.mp hc' with rfl | hc's
        · rw [hgetc'] at hgetc
          cases hgetc
          rw [hhd] at hstd'
          cases hstd'
          exact memEvolves hrec.1 hgetp₀ hmem pn' hpn'
        · exact hrec.2 c' hc's nodec' hgetc' std' hstd' pn' hpn'
      · rw [if_neg hmem] at hok
        have hstep : StoreEvolves s₀
            (storeSet s₀ pid { pn₀ with deps := pn₀.deps ++ [std] }) :=
          storeEvolves_append hgetp₀ (by rw [hkp₀, hq]) hstdSafe
        have hrec := ih (fun x hx => hcusts x (List.mem_cons_of_mem c hx))
          _ s' hok (storeEvolves_trans hse₀ hstep)
        refine ⟨storeEvolves_trans hstep hrec.1, ?_⟩
        intro c' hc' nodec' hgetc' std' hstd' pn' hpn'
        rcases List.mem_cons.mp hc' with rfl | hc's
        · rw [hgetc'] at hgetc
          cases hgetc
          rw [hhd] at hstd'
          cases hstd'
          have hmem' : std ∈ ({ pn₀ with deps := pn₀.deps ++ [std] } :
              PackNode).deps := by
            simp
          exact memEvolves hrec.1 (storeGet_storeSet_self hgetp₀ _) hmem'
            pn' hpn'
        · exact hrec.2 c' hc's nodec' hgetc' std' hstd' pn' hpn'

/-- Soundness of `completeQueryDeps`: the heap evolves, and every direct
customization dependency of the completed QUERY pack gets its first
dependency into the pack's final list. -/
theorem completeQueryDeps_sound {s : Store} {pid : NodeId} {pnode : PackNode}
    (hpid : storeGet s pid = some pnode)
    (hq : pnode.kind = CodeQLPackKind.QUERY_PACK)
    (hw : CustTargetsSafe s) {s' : Store}
    (hok : completeQueryDeps s pid = .ok s') :
    StoreEvolves s s' ∧
    ∀ c, c ∈ pnode.deps → ∀ nodec, storeGet s c = some nodec →
      nodec.kind = CodeQLPackKind.CUSTOMIZATION_PACK →
      ∀ std, nodec.deps.head? = some std →
      ∀ pn', storeGet s' pid = some pn' → std ∈ pn'.deps := by
  unfold completeQueryDeps at hok
  rw [hpid] at hok
  have hcusts : ∀ c ∈ pnode.deps.filter (fun d =>
      match storeGet s d with
      | some dn => dn.kind == CodeQLPackKind.CUSTOMIZATION_PACK
      | none => false),
      ∃ nodec, storeGet s c = some nodec ∧
        nodec.kind = CodeQLPackKind.CUSTOMIZATION_PACK := by
    intro c hc
    have hp := (List.mem_filter.mp hc).2
    cases hg : storeGet s c with
    | none => rw [hg] at hp; cases hp
    | some dn =>
      rw [hg] at hp
      exact ⟨dn, rfl, eq_of_beq hp⟩
  obtain ⟨hse, hpost⟩ := complete_loop_sound hpid hq hw _ hcusts s s' hok
    (storeEvolves_refl s)
  refine ⟨hse, ?_⟩
  intro c hc nodec hgetc hkc std hstd pn' hpn'
  have hcf : c ∈ pnode.deps.filter (fun d =>
      match storeGet s d with
      | some dn => dn.kind == CodeQLPackKind.CUSTOMIZATION_PACK
      | none => false) := by
    refine List.mem_filter.mpr ⟨hc, ?_⟩
    rw [hgetc]
    simp [hkc]
  exact hpost c hcf nodec hgetc std hstd pn' hpn'

/-- The completion guarantee survives a heap evolution that leaves the
processed set unchanged. -/
theorem planGood_evolves {st : PlanState} {s' : Store}
    (hse : StoreEvolves st.store s') (hg : PlanGood st) :
    PlanGood { st with store := s' } := by
  intro q hqmem nodeq' hgetq' hkq c hc nodec' hgetc' hkc std hstd
  obtain ⟨nodeq, hgetq, _, hkq0, ⟨t, hdeps, ht⟩, _⟩ := kindEvolves hse hgetq'
  rcases List.mem_append.mp (by rw [← hdeps]; exact hc) with hcd | hct
  · obtain ⟨nodec, hgetc, _, hkc0, _, hnqc⟩ := kindEvolves hse hgetc'
    have hkc' : nodec.kind = CodeQLPackKind.CUSTOMIZATION_PACK := by
      rw [← hkc0, hkc]
    have hdc : nodec'.deps = nodec.deps :=
      hnqc (by rw [hkc']; intro hh; cases hh)
    have := hg q hqmem nodeq hgetq (by rw [← hkq0, hkq]) c hcd nodec hgetc
      hkc' std (by rw [← hdc]; exact hstd)
    rw [hdeps]
    exact List.mem_append_left _ this
  · exact absurd hkc (ht c hct nodec' hgetc')

/-- Joint soundness of `add_to_graph` and its dependency-recursion loop:
successful graph construction evolves the heap, keeps customization targets
safe, and establishes the completion guarantee for every processed pack. -/
theorem graphSound (ws : List NodeId) : ∀ fuel,
    (∀ pid st st', add_to_graph ws fuel pid st = .ok st' →
      CustTargetsSafe st.store → PlanGood st →
      StoreEvolves st.store st'.store ∧ CustTargetsSafe st'.store ∧
        PlanGood st') ∧
    (∀ ds st st', add_deps_list ws fuel ds st = .ok st' →
      CustTargetsSafe st.store → PlanGood st →
      StoreEvolves st.store st'.store ∧ CustTargetsSafe st'.store ∧
        PlanGood st') := by
  intro fuel
  induction fuel with
  | zero =>
    constructor
    · intro pid st st' h _ _
      simp [add_to_graph] at h
    · intro ds st st' h _ _
      simp [add_deps_list] at h
  | succ f ih =>
    obtain ⟨ihG, ihL⟩ := ih
    constructor
    · intro pid st st' hok hw hg
      simp only [add_to_graph] at hok
      cases hget : storeGet st.store pid with
      | none =>
        rw [hget] at hok
        cases hok
      | some node =>
        simp only [hget] at hok
        by_cases hws : pid ∉ ws
        · rw [if_pos hws] at hok
          cases hok
          exact ⟨storeEvolves_refl _, hw, hg⟩
        · rw [if_neg hws] at hok
          by_cases hkc : (node.kind == CodeQLPackKind.CUSTOMIZATION_PACK)
              = true
          · rw [if_pos hkc] at hok
            cases hhd : node.deps.head? with
            | none =>
              simp only [hhd] at hok
              exact Except.noConfusion hok
            | some std =>
              simp only [hhd] at hok
              cases hok
              refine ⟨storeEvolves_refl _, hw, ?_⟩
              intro q hq nodeq hgetq hkq
              rcases List.mem_append.mp hq with hqold | hqnew
              · exact hg q hqold nodeq hgetq hkq
              · rcases List.mem_singleton.mp hqnew with rfl
                rw [hgetq] at hget
                cases hget
                rw [eq_of_beq hkc] at hkq
                cases hkq
          · rw [if_neg hkc] at hok
            by_cases hkq : (node.kind == CodeQLPackKind.QUERY_PACK) = true
            · -- QUERY: dependency completion runs first
              rw [if_pos hkq] at hok
              have hkind : node.kind = CodeQLPackKind.QUERY_PACK :=
                eq_of_beq hkq
              cases hcq : completeQueryDeps st.store pid with
              | error e =>
                rw [hcq] at hok
                exact Except.noConfusion hok
              | ok store₁ =>
                simp only [hcq, except_bind_ok] at hok
                obtain ⟨hse₁, hpost⟩ :=
                  completeQueryDeps_sound hget hkind hw hcq
                cases hget₁ : storeGet store₁ pid with
                | none =>
                  simp only [hget₁] at hok
                  exact Except.noConfusion hok
                | some node₁ =>
                  simp only [hget₁] at hok
                  cases hrec : add_deps_list ws f node₁.deps
                      { st with
                          store := store₁,
                          sorterCalls :=
                            st.sorterCalls ++ [(pid, node₁.deps)] } with
                  | error e =>
                    rw [hrec] at hok
                    exact Except.noConfusion hok
                  | ok st₃ =>
                    simp only [hrec, except_bind_ok] at hok
                    cases hok
                    have hsafe₁ : CustTargetsSafe store₁ :=
                      custTargetsSafe_evolves hse₁ hw
                    have hg₁ : PlanGood { st with store := store₁ } :=
                      planGood_evolves hse₁ hg
                    obtain ⟨hse₂, hsafe₃, hg₃⟩ :=
                      ihL node₁.deps _ st₃ hrec hsafe₁ hg₁
                    refine ⟨storeEvolves_trans hse₁ hse₂, hsafe₃, ?_⟩
                    intro q hq nodeq hgetq hkq' c hc nodec hgetc hkcq std hstd
                    rcases List.mem_append.mp hq with hqold | hqnew
                    · exact hg₃ q hqold nodeq hgetq hkq' c hc nodec hgetc
                        hkcq std hstd
                    · rcases List.mem_singleton.mp hqnew with rfl
                      obtain ⟨node₁', hgq₁, _, _, ⟨t₂, hdeps₂, ht₂⟩, _⟩ :=
                        kindEvolves hse₂ hgetq
                      rw [hget₁] at hgq₁
                      cases hgq₁
                      rcases List.mem_append.mp
                          (by rw [← hdeps₂]; exact hc) with hc₁ | hct₂
                      · obtain ⟨node₀', hgq₀, _, _, ⟨t₁, hdeps₁, ht₁⟩, _⟩ :=
                          kindEvolves hse₁ hget₁
                        rw [hget] at hgq₀
                        cases hgq₀
                        obtain ⟨nodec₁, hgc₁, _, hkc₁, _, hnqc₁⟩ :=
                          kindEvolves hse₂ hgetc
                        rcases List.mem_append.mp
                            (by rw [← hdeps₁]; exact hc₁) with hc₀ | hct₁
                        · -- a declared direct dependency of the query pack
                          obtain ⟨nodec₀, hgc₀, _, hkc₀, _, hnqc₀⟩ :=
                            kindEvolves hse₁ hgc₁
                          have hkcc : nodec₀.kind =
                              CodeQLPackKind.CUSTOMIZATION_PACK := by
                            rw [← hkc₀, ← hkc₁]
                            exact hkcq
                          have hd₁ : nodec₁.deps = nodec₀.deps :=
                            hnqc₀ (by rw [hkcc]; intro hh; cases hh)
                          have hd₂ : nodec.deps = nodec₁.deps :=
                            hnqc₁ (by
                              rw [← hkc₁]
                              exact hkcq ▸ (by intro hh; cases hh))
                          have hstd₀ : nodec₀.deps.head? = some std := by
                            rw [← hd₁, ← hd₂]
                            exact hstd
                          have hstdin :=
                            hpost c hc₀ nodec₀ hgc₀ hkcc std hstd₀
                              node₁ hget₁
                          exact memEvolves hse₂ hget₁ hstdin nodeq hgetq
                        · -- appended during completion: not a customization
                          have hne : nodec₁.kind ≠
                              CodeQLPackKind.CUSTOMIZATION_PACK :=
                            ht₁ c hct₁ nodec₁ hgc₁
                          have : nodec₁.kind =
                              CodeQLPackKind.CUSTOMIZATION_PACK := by
                            rw [← hkc₁]
                            exact hkcq
                          exact absurd this hne
                      · exact absurd hkcq (ht₂ c hct₂ nodec hgetc)
            · -- LIBRARY (not QUERY, not CUSTOMIZATION): no completion
              rw [if_neg hkq] at hok
              have hknq : node.kind ≠ CodeQLPackKind.QUERY_PACK := by
                intro hh
                apply hkq
                rw [hh]
                rfl
              simp only [except_bind_ok, hget] at hok
              cases hrec : add_deps_list ws f node.deps
                  { st with
                      store := st.store,
                      sorterCalls :=
                        st.sorterCalls ++ [(pid, node.deps)] } with
              | error e =>
                rw [hrec] at hok
                exact Except.noConfusion hok
              | ok st₃ =>
                simp only [hrec, except_bind_ok] at hok
                cases hok
                obtain ⟨hse₂, hsafe₃, hg₃⟩ :=
                  ihL node.deps _ st₃ hrec hw hg
                refine ⟨hse₂, hsafe₃, ?_⟩
                intro q hq nodeq hgetq hkq'
                rcases List.mem_append.mp hq with hqold | hqnew
                · exact hg₃ q hqold nodeq hgetq hkq'
                · rcases List.mem_singleton.mp hqnew with rfl
                  obtain ⟨nodeq₀, hgq₀, _, hkq₀, _, _⟩ :=
                    kindEvolves hse₂ hgetq
                  rw [hget] at hgq₀
                  cases hgq₀
                  rw [hkq'] at hkq₀
                  exact absurd hkq₀.symm hknq
    · intro ds st st' hok hw hg
      cases ds with
      | nil =>
        simp only [add_deps_list] at hok
        cases hok
        exact ⟨storeEvolves_refl _, hw, hg⟩
      | cons d rest =>
        simp only [add_deps_list] at hok
        by_cases hmem : d ∈ st.processed
        · rw [if_pos hmem] at hok
          simp only [except_bind_ok] at hok
          exact ihL rest st st' hok hw hg
        · rw [if_neg hmem] at hok
          cases hd : add_to_graph ws f d st with
          | error e =>
            rw [hd] at hok
            exact Except.noConfusion hok
          | ok st₁ =>
            simp only [hd, except_bind_ok] at hok
            obtain ⟨hse₁, hsafe₁, hg₁⟩ := ihG d st st₁ hd hw hg
            obtain ⟨hse₂, hsafe₂, hg₂⟩ := ihL rest st₁ st' hok hsafe₁ hg₁
            exact ⟨storeEvolves_trans hse₁ hse₂, hsafe₂, hg₂⟩

/-- Folding `add_to_graph` over the selected packs preserves the evolution,
safety and completion invariants. -/
theorem packsLoopSound (ws : List NodeId) (fuel : Nat) :
    ∀ ps st st', packs_loop ws fuel ps st = .ok st' →
      CustTargetsSafe st.store → PlanGood st →
      StoreEvolves st.store st'.store ∧ CustTargetsSafe st'.store ∧
        PlanGood st' := by
  intro ps
  induction ps with
  | nil =>
    intro st st' hok hw hg
    simp only [packs_loop] at hok
    cases hok
    exact ⟨storeEvolves_refl _, hw, hg⟩
  | cons p ps ih =>
    intro st st' hok hw hg
    simp only [packs_loop] at hok
    by_cases hmem : p ∈ st.processed
    · rw [if_pos hmem] at hok
      simp only [except_bind_ok] at hok
      exact ih st st' hok hw hg
    · rw [if_neg hmem] at hok
      cases hp : add_to_graph ws fuel p st with
      | error e =>
        rw [hp] at hok
        exact Except.noConfusion hok
      | ok st₁ =>
        simp only [hp, except_bind_ok] at hok
        obtain ⟨hse₁, hw₁, hg₁⟩ := (graphSound ws fuel).1 p st st₁ hp hw hg
        obtain ⟨hse₂, hw₂, hg₂⟩ := ih st₁ st' hok hw₁ hg₁
        exact ⟨storeEvolves_trans hse₁ hse₂, hw₂, hg₂⟩

/-- The bundle-query-pack loop only records sorter edges: the heap and the
processed list are untouched. -/
theorem bundleQueryLoop_frame (fuel : Nat) (std : NodeId) :
    ∀ bps st st', bundle_query_loop fuel std bps st = .ok st' →
      st'.store = st.store ∧ st'.processed = st.processed := by
  intro bps
  induction bps with
  | nil =>
    intro st st' hok
    simp only [bundle_query_loop] at hok
    cases hok
    exact ⟨rfl, rfl⟩
  | cons bp bps ih =>
    intro st st' hok
    simp only [bundle_query_loop] at hok
    cases hget : storeGet st.store bp with
    | none =>
      rw [hget] at hok
      exact Except.noConfusion hok
    | some bnode =>
      simp only [hget] at hok
      by_cases hkq : (bnode.kind == CodeQLPackKind.QUERY_PACK) = true
      · rw [if_pos hkq] at hok
        cases hb : is_dependent_on st.store fuel bp std with
        | error e =>
          rw [hb] at hok
          exact Except.noConfusion hok
        | ok b =>
          simp only [hb, except_bind_ok] at hok
          cases b with
          | true =>
            rw [if_pos rfl] at hok
            obtain ⟨h1, h2⟩ := ih _ st' hok
            exact ⟨h1, h2⟩
          | false =>
            rw [if_neg (by simp)] at hok
            exact ih st st' hok
      · rw [if_neg hkq] at hok
        exact ih st st' hok

/-- The customized-standard-library loop only records sorter edges: the heap
and the processed list are untouched. -/
theorem stdlibLoop_frame (fuel : Nat) (bps : List NodeId) :
    ∀ sls st st', stdlib_loop fuel bps sls st = .ok st' →
      st'.store = st.store ∧ st'.processed = st.processed := by
  intro sls
  induction sls with
  | nil =>
    intro st st' hok
    simp only [stdlib_loop] at hok
    cases hok
    exact ⟨rfl, rfl⟩
  | cons hd rest ih =>
    obtain ⟨std, custs⟩ := hd
    intro st st' hok
    simp only [stdlib_loop] at hok
    cases hb : bundle_query_loop fuel std bps
        { st with sorterCalls := st.sorterCalls ++ [(std, custs)] } with
    | error e =>
      rw [hb] at hok
      exact Except.noConfusion hok
    | ok st₂ =>
      simp only [hb, except_bind_ok] at hok
      obtain ⟨hs₂, hp₂⟩ := bundleQueryLoop_frame fuel std bps _ st₂ hb
      obtain ⟨hs₃, hp₃⟩ := ih st₂ st' hok
      exact ⟨hs₃.trans hs₂, hp₃.trans hp₂⟩

/-- C4 (amended): the planner completes only DIRECT customization
dependencies of each processed QUERY pack. A successful `plan_packs` run over
a heap with safe customization targets preserves every manifest and kind,
only appends non-customization entries to QUERY packs' dependency lists, and
guarantees for every processed QUERY pack that the target standard library of
each customization pack among its DIRECT dependencies appears in its
dependency list. The original claim's transitive form is refuted by
`c4_transitive_counterexample`. -/
theorem c4_direct_customization_amended (fuel : Nat)
    (ws bps packs : List NodeId) (store0 : Store) (st' : PlanState)
    (hwf : wfStore store0 = true)
    (hok : plan_packs fuel ws bps packs store0 = .ok st') :
    StoreEvolves store0 st'.store ∧
    (∀ q, q ∈ st'.processed →
      ∀ nodeq, storeGet st'.store q = some nodeq →
        nodeq.kind = CodeQLPackKind.QUERY_PACK →
        ∀ c, c ∈ nodeq.deps →
          ∀ nodec, storeGet st'.store c = some nodec →
            nodec.kind = CodeQLPackKind.CUSTOMIZATION_PACK →
            ∀ std, nodec.deps.head? = some std → std ∈ nodeq.deps) := by
  simp only [plan_packs] at hok
  cases h1 : packs_loop ws fuel packs
      { store := store0, processed := [], stdLibDeps := [],
        sorterCalls := [] } with
  | error e =>
    rw [h1] at hok
    exact Except.noConfusion hok
  | ok st₁ =>
    simp only [h1, except_bind_ok] at hok
    have hg0 : PlanGood
        { store := store0, processed := [], stdLibDeps := [],
          sorterCalls := [] } := by
      intro q hq
      cases hq
    obtain ⟨hse₁, _, hg₁⟩ :=
      packsLoopSound ws fuel packs _ st₁ h1 (wfStore_safe hwf) hg0
    obtain ⟨hstore, hproc⟩ := stdlibLoop_frame fuel bps st₁.stdLibDeps st₁
      st' hok
    refine ⟨by rw [hstore]; exact hse₁, ?_⟩
    intro q hq nodeq hgetq hkq c hc nodec hgetc hkc std hstd
    rw [hproc] at hq
    rw [hstore] at hgetq hgetc
    exact hg₁ q hq nodeq hgetq hkq c hc nodec hgetc hkc std hstd

/-- C4 witness: on the heap where query pack 1 directly depends on
customization pack 3 targeting standard library 4, planning appends 4 to
pack 1's dependencies and the amended guarantee holds. -/
theorem c4_direct_customization_amended_witness :
    wfStore c4bStore = true ∧
    plan_packs 10 [1, 3] [] [1] c4bStore = .ok c4bPlanned ∧
    PlanGood c4bPlanned ∧
    (storeGet c4bPlanned.store 1).map PackNode.deps = some [3, 4] :=
  ⟨by decide, by rfl,
    (c4_direct_customization_amended 10 [1, 3] [] [1] c4bStore c4bPlanned
      (by decide) (by rfl)).2,
    by rfl⟩

/-- C4 counterexample to the claimed TRANSITIVE completion: query pack 1
depends on library pack 2, which depends on customization pack 3 targeting
standard library 4. The code's own reachability test confirms 1 transitively
depends on 3, yet after planning pack 1's dependency list is still `[2]` —
the target standard library 4 was not appended, because `add_to_graph` scans
only the direct dependencies of the query pack. -/
theorem c4_transitive_counterexample :
    (storeGet c4Store 1).map PackNode.kind =
      some CodeQLPackKind.QUERY_PACK ∧
    is_dependent_on c4Store 10 1 3 = .ok true ∧
    (storeGet c4Store 3).map PackNode.kind =
      some CodeQLPackKind.CUSTOMIZATION_PACK ∧
    (storeGet c4Store 3).map (fun n => n.deps.head?) = some (some 4) ∧
    (plan_packs 10 [1, 2, 3] [] [1] c4Store).map
      (fun st => st.processed) = .ok [3, 2, 1] ∧
    (plan_packs 10 [1, 2, 3] [] [1] c4Store).map
      (fun st => (storeGet st.store 1).map PackNode.deps) =
      .ok (some [2]) ∧
    (4 : NodeId) ∉ [2] :=
  ⟨rfl, rfl, rfl, rfl, rfl, rfl, by decide⟩

/-- An association-list lookup misses exactly the absent keys. -/
theorem infoLookup_eq_none (l : List (NodeId × TSNodeInfo)) (n : NodeId) :
    infoLookup l n = none ↔ n ∉ l.map Prod.fst := by
  induction l with
  | nil => simp [infoLookup]
  | cons e rest ih =>
    by_cases he : e.1 = n
    · simp [infoLookup, he]
    · simp [infoLookup, he, ih, Ne.symm he]

/-- With distinct keys, lookup finds the stored entry. -/
theorem infoLookup_mem {l : List (NodeId × TSNodeInfo)} {n : NodeId}
    {i : TSNodeInfo} (hmem : (n, i) ∈ l) (hnd : (l.map Prod.fst).Nodup) :
    infoLookup l n = some i := by
  induction l with
  | nil => cases hmem
  | cons e rest ih =>
    simp only [List.map_cons, List.nodup_cons] at hnd
    rcases List.mem_cons.mp hmem with rfl | hrest
    · simp [infoLookup]
    · have hne : e.1 ≠ n := by
        intro hh
        exact hnd.1 (hh ▸ (List.mem_map.mpr ⟨(n, i), hrest, rfl⟩))
      simp [infoLookup, hne, ih hrest hnd.2]

/-- Lookup after the in-place update of one key. -/
theorem infoLookup_modifyMap (l : List (NodeId × TSNodeInfo)) (p m : NodeId)
    (f : TSNodeInfo → TSNodeInfo) :
    infoLookup (l.map (fun e => if e.1 = p then (e.1, f e.2) else e)) m =
      if m = p then (infoLookup l m).map f else infoLookup l m := by
  induction l with
  | nil => by_cases h : m = p <;> simp [infoLookup, h]
  | cons e rest ih =>
    by_cases hep : e.1 = p
    · by_cases hem : e.1 = m
      · have hmp : m = p := by rw [← hem, hep]
        simp [infoLookup, hep, hem, hmp]
      · have hmp : ¬ m = p := fun hh => hem (by rw [hep, ← hh])
        have hpm : ¬ p = m := fun hh => hmp hh.symm
        simp [infoLookup, hep, hem, hmp, hpm, ih]
    · by_cases hem : e.1 = m
      · have hmp : ¬ m = p := fun hh => hep (by rw [hem, hh])
        simp [infoLookup, hep, hem, hmp]
      · simp [infoLookup, hep, hem, ih]

/-- Lookup after appending a single fresh entry. -/
theorem infoLookup_append_single (l : List (NodeId × TSNodeInfo))
    (p m : NodeId) (i : TSNodeInfo) :
    infoLookup (l ++ [(p, i)]) m =
      match infoLookup l m with
      | some j => some j
      | none => if p = m then some i else none := by
  induction l with
  | nil => simp [infoLookup]
  | cons e rest ih =>
    by_cases hem : e.1 = m
    · simp [infoLookup, hem]
    · simp [infoLookup, hem, ih]

/-- `tsModify` keeps the node list. -/
theorem tsNodes_modify (ts : TSState) (p : NodeId)
    (f : TSNodeInfo → TSNodeInfo) : tsNodes (tsModify ts p f) = tsNodes ts := by
  simp only [tsNodes, tsModify, List.map_map]
  apply List.map_congr_left
  intro e _
  by_cases he : e.1 = p <;> simp [he]

/-- `tsModify` updates exactly one entry of the lookup view. -/
theorem tsFind_modify (ts : TSState) (p m : NodeId)
    (f : TSNodeInfo → TSNodeInfo) :
    tsFind (tsModify ts p f) m =
      if m = p then (tsFind ts m).map f else tsFind ts m := by
  simp [tsFind, tsModify, infoLookup_modifyMap]

/-- A node is registered exactly when the lookup succeeds. -/
theorem tsFind_isSome_iff_mem (ts : TSState) (n : NodeId) :
    (tsFind ts n).isSome ↔ n ∈ tsNodes ts := by
  rw [tsNodes, ← not_iff_not, ← infoLookup_eq_none (ts.node2info) n]
  cases h : infoLookup ts.node2info n <;> simp [tsFind, h]

/-- `tsGetOrAdd`'s node list: unchanged or extended by the fresh id. -/
theorem tsNodes_getOrAdd (ts : TSState) (p : NodeId) :
    tsNodes (tsGetOrAdd ts p) =
      if (tsFind ts p).isSome then tsNodes ts else tsNodes ts ++ [p] := by
  by_cases h : (tsFind ts p).isSome <;> simp [tsGetOrAdd, tsNodes, h]

/-- `tsGetOrAdd` on an already-registered id is the identity of the view. -/
theorem tsFind_getOrAdd_present (ts : TSState) (p m : NodeId)
    (h : (tsFind ts p).isSome) :
    tsFind (tsGetOrAdd ts p) m = tsFind ts m := by
  simp [tsGetOrAdd, h]

/-- `tsGetOrAdd` on a fresh id maps it to the zero entry and keeps the rest. -/
theorem tsFind_getOrAdd_absent (ts : TSState) (p m : NodeId)
    (h : (tsFind ts p).isSome = false) :
    tsFind (tsGetOrAdd ts p) m =
      match tsFind ts m with
      | some j => some j
      | none => if p = m then some ⟨0, []⟩ else none := by
  have hcond : ¬ ((tsFind ts p).isSome = true) := by simp [h]
  simp only [tsGetOrAdd, if_neg hcond]
  exact infoLookup_append_single ts.node2info p m ⟨0, []⟩

/-- Mapping a pointwise-equal function gives the same sum. -/
theorem sum_map_congr {α : Type} {l : List α} {f g : α → Nat}
    (h : ∀ x ∈ l, f x = g x) : (l.map f).sum = (l.map g).sum := by
  induction l with
  | nil => rfl
  | cons a rest ih =>
    simp only [List.map_cons, List.sum_cons]
    rw [h a (List.mem_cons_self a rest), ih (fun x hx => h x (List.mem_cons_of_mem a hx))]

/-- Bumping one occurrence's value bumps the sum by the same amount. -/
theorem sum_map_update {l : List NodeId} {p : NodeId} {f f' : NodeId → Nat}
    {k : Nat} (hnd : l.Nodup) (hp : p ∈ l)
    (hothers : ∀ q, q ≠ p → f' q = f q) (hself : f' p = f p + k) :
    (l.map f').sum = (l.map f).sum + k := by
  induction l with
  | nil => cases hp
  | cons a rest ih =>
    simp only [List.nodup_cons] at hnd
    rcases List.mem_cons.mp hp with rfl | hrest
    · have : (rest.map f').sum = (rest.map f).sum :=
        sum_map_congr (fun x hx => hothers x (fun hh => hnd.1 (hh ▸ hx)))
      simp only [List.map_cons, List.sum_cons, hself, this]
      omega
    · have ha : f' a = f a := hothers a (fun hh => hnd.1 (hh ▸ hrest))
      simp only [List.map_cons, List.sum_cons, ha, ih hnd.2 hrest]
      omega

/-- With nothing done yet, the in-weight sums over every registered node. -/
theorem inWeight_nil_eq (ts : TSState) (n : NodeId) :
    inWeight ts [] n =
      ((tsNodes ts).map (fun p => (tsSucc ts p).count n)).sum := by
  unfold inWeight
  rw [List.filter_eq_self.mpr]
  intro a _
  simp

/-- A positive in-weight exhibits a live predecessor edge. -/
theorem inWeight_pos_exists {ts : TSState} {d : List NodeId} {n : NodeId}
    (h : inWeight ts d n ≠ 0) :
    ∃ p, p ∈ tsNodes ts ∧ p ∉ d ∧ n ∈ tsSucc ts p := by
  unfold inWeight at h
  by_contra hall
  push_neg at hall
  apply h
  rw [List.sum_eq_zero_iff]
  intro x hx
  rcases List.mem_map.mp hx with ⟨p, hpf, rfl⟩
  rcases List.mem_filter.mp hpf with ⟨hpn, hpd⟩
  have hpd' : p ∉ d := by
    intro hh
    simp [hh] at hpd
  by_contra hc
  exact hall p hpn hpd' (List.count_pos_iff.mp (Nat.pos_of_ne_zero hc))

/-- Zero in-weight forbids any live predecessor edge. -/
theorem inWeight_zero_count {ts : TSState} {d : List NodeId} {n p : NodeId}
    (h : inWeight ts d n = 0) (hp : p ∈ tsNodes ts) (hpd : p ∉ d) :
    n ∉ tsSucc ts p := by
  intro hmem
  unfold inWeight at h
  rw [List.sum_eq_zero_iff] at h
  have hpf : p ∈ (tsNodes ts).filter (fun q => !(q ∈ d : Bool)) :=
    List.mem_filter.mpr ⟨hp, by simp [hpd]⟩
  have := h ((tsSucc ts p).count n) (List.mem_map.mpr ⟨p, hpf, rfl⟩)
  exact absurd this (Nat.pos_iff_ne_zero.mp (List.count_pos_iff.mpr hmem))

/-- Splitting one node out of a filtered sum. -/
theorem filterSum_remove {l d : List NodeId} {g : NodeId} (f : NodeId → Nat)
    (hnd : l.Nodup) (hg : g ∈ l) (hgd : g ∉ d) :
    ((l.filter (fun p => !(p ∈ d : Bool))).map f).sum =
      ((l.filter (fun p => !(p ∈ d ++ [g] : Bool))).map f).sum + f g := by
  induction l with
  | nil => cases hg
  | cons a rest ih =>
    simp only [List.nodup_cons] at hnd
    rcases List.mem_cons.mp hg with rfl | hrest
    · have hfcongr : rest.filter (fun p => !(p ∈ d : Bool)) =
          rest.filter (fun p => !(p ∈ d ++ [g] : Bool)) := by
        apply List.filter_congr
        intro p hp
        have hpg : p ≠ g := fun hh => hnd.1 (hh ▸ hp)
        simp [List.mem_append, hpg]
      have h1 : (!(g ∈ d : Bool)) = true := by simp [hgd]
      have h2 : (!(g ∈ d ++ [g] : Bool)) = false := by simp
      rw [List.filter_cons, List.filter_cons, h1, h2, if_pos rfl,
        if_neg Bool.false_ne_true, hfcongr]
      simp only [List.map_cons, List.sum_cons]
      omega
    · have hag : a ≠ g := fun hh => hnd.1 (hh ▸ hrest)
      have hsame : (a ∈ d ++ [g] : Bool) = (a ∈ d : Bool) := by
        simp [List.mem_append, hag]
      rw [List.filter_cons, List.filter_cons, hsame]
      by_cases had : a ∈ d
      · have h3 : (!(a ∈ d : Bool)) = false := by simp [had]
        rw [h3, if_neg Bool.false_ne_true, if_neg Bool.false_ne_true]
        exact ih hnd.2 hrest
      · have h3 : (!(a ∈ d : Bool)) = true := by simp [had]
        rw [h3, if_pos rfl, if_pos rfl]
        simp only [List.map_cons, List.sum_cons]
        rw [ih hnd.2 hrest]
        omega

/-- Marking one more node done removes exactly its outgoing edge instances
from the in-weight. -/
theorem inWeight_removeOne {ts : TSState} {d : List NodeId} {g : NodeId}
    (n : NodeId) (hnd : (tsNodes ts).Nodup) (hg : g ∈ tsNodes ts)
    (hgd : g ∉ d) :
    inWeight ts d n = inWeight ts (d ++ [g]) n + (tsSucc ts g).count n := by
  unfold inWeight
  exact filterSum_remove _ hnd hg hgd

/-- Marking a duplicate-free group done removes the group's edge instances
from the in-weight. -/
theorem inWeight_removeGroup {ts : TSState} (hnd : (tsNodes ts).Nodup) :
    ∀ (gs : List NodeId) (d : List NodeId) (n : NodeId), gs.Nodup →
      (∀ g ∈ gs, g ∈ tsNodes ts ∧ g ∉ d) →
      inWeight ts d n = inWeight ts (d ++ gs) n +
        ((gs.map (fun g => (tsSucc ts g).count n)).sum) := by
  intro gs
  induction gs with
  | nil =>
    intro d n _ _
    simp
  | cons g gs ih =>
    intro d n hgnd hmem
    simp only [List.nodup_cons] at hgnd
    have hstep := inWeight_removeOne n hnd
      (hmem g (List.mem_cons_self g gs)).1 (hmem g (List.mem_cons_self g gs)).2
    have hrest := ih (d ++ [g]) n hgnd.2 (fun x hx =>
      ⟨(hmem x (List.mem_cons_of_mem g hx)).1, by
        intro hh
        rcases List.mem_append.mp hh with h1 | h2
        · exact (hmem x (List.mem_cons_of_mem g hx)).2 h1
        · exact hgnd.1 (List.mem_singleton.mp h2 ▸ hx)⟩)
    rw [hstep, hrest]
    simp only [List.append_assoc, List.singleton_append, List.map_cons,
      List.sum_cons]
    omega

/-- `done`'s decrement pass subtracts each listed occurrence from the count. -/
theorem decSuccessors_counts :
    ∀ (l : List NodeId) (counts : NodeId → Nat) (m : NodeId),
      (decSuccessors counts l).1 m = counts m - l.count m := by
  intro l
  induction l with
  | nil =>
    intro counts m
    simp [decSuccessors]
  | cons a rest ih =>
    intro counts m
    have hfst : (decSuccessors counts (a :: rest)).1 =
        (decSuccessors
          (fun m' => if m' = a then counts a - 1 else counts m') rest).1 := by
      simp only [decSuccessors]
      by_cases h : (counts a == 1) = true <;> simp [h]
    rw [hfst, ih]
    by_cases hm : m = a
    · subst hm
      rw [if_pos rfl, List.count_cons_self]
      omega
    · rw [if_neg hm, List.count_cons_of_ne hm]

/-- `done`'s decrement pass collects exactly the nodes whose count reaches
zero: those with a positive count not exceeding their listed occurrences. -/
theorem decSuccessors_mem :
    ∀ (l : List NodeId) (counts : NodeId → Nat) (s : NodeId),
      s ∈ (decSuccessors counts l).2 ↔
        (1 ≤ counts s ∧ counts s ≤ l.count s) := by
  intro l
  induction l with
  | nil =>
    intro counts s
    simp only [decSuccessors, List.not_mem_nil, false_iff, List.count_nil]
    omega
  | cons a rest ih =>
    intro counts s
    have hpair : (decSuccessors counts (a :: rest)).2 =
        if (counts a == 1) = true
        then a :: (decSuccessors
          (fun m => if m = a then counts a - 1 else counts m) rest).2
        else (decSuccessors
          (fun m => if m = a then counts a - 1 else counts m) rest).2 := by
      simp only [decSuccessors]
      by_cases h : (counts a == 1) = true <;> simp [h]
    rw [hpair]
    by_cases h1 : (counts a == 1) = true
    · have ha1 : counts a = 1 := eq_of_beq h1
      rw [if_pos h1, List.mem_cons, ih]
      by_cases hsa : s = a
      · subst hsa
        rw [if_pos rfl, List.count_cons_self, ha1]
        constructor
        · intro _
          exact ⟨by omega, by omega⟩
        · intro _
          exact Or.inl rfl
      · rw [if_neg hsa, List.count_cons_of_ne hsa]
        constructor
        · intro hh
          rcases hh with hh | hh
          · exact absurd hh hsa
          · exact hh
        · exact Or.inr
    · have ha1 : counts a ≠ 1 := by
        intro hh
        rw [hh] at h1
        exact h1 rfl
      rw [if_neg h1, ih]
      by_cases hsa : s = a
      · subst hsa
        rw [if_pos rfl, List.count_cons_self]
        omega
      · rw [if_neg hsa, List.count_cons_of_ne hsa]

/-- Each node is collected at most once per decrement pass. -/
theorem decSuccessors_nodup :
    ∀ (l : List NodeId) (counts : NodeId → Nat),
      (decSuccessors counts l).2.Nodup := by
  intro l
  induction l with
  | nil =>
    intro counts
    simp [decSuccessors]
  | cons a rest ih =>
    intro counts
    have hpair : (decSuccessors counts (a :: rest)).2 =
        if (counts a == 1) = true
        then a :: (decSuccessors
          (fun m => if m = a then counts a - 1 else counts m) rest).2
        else (decSuccessors
          (fun m => if m = a then counts a - 1 else counts m) rest).2 := by
      simp only [decSuccessors]
      by_cases h : (counts a == 1) = true <;> simp [h]
    rw [hpair]
    by_cases h1 : (counts a == 1) = true
    · have ha1 : counts a = 1 := eq_of_beq h1
      rw [if_pos h1]
      refine List.nodup_cons.mpr ⟨?_, ih _⟩
      intro hmem
      have := (decSuccessors_mem rest _ a).mp hmem
      rw [if_pos rfl] at this
      omega
    · rw [if_neg h1]
      exact ih _

/-- A whole-group `done` round subtracts every group member's occurrences. -/
theorem tsGroupDone_counts (succ : NodeId → List NodeId) :
    ∀ (gs : List NodeId) (counts : NodeId → Nat) (m : NodeId),
      (tsGroupDone succ counts gs).1 m =
        counts m - ((gs.map (fun g => (succ g).count m)).sum) := by
  intro gs
  induction gs with
  | nil =>
    intro counts m
    simp [tsGroupDone]
  | cons g gs ih =>
    intro counts m
    simp only [tsGroupDone, tsDone]
    rw [ih, decSuccessors_counts]
    simp only [List.map_cons, List.sum_cons]
    omega

/-- A whole-group `done` round collects exactly the nodes whose count drops
to zero: positive count, at most the group's incoming edge instances. -/
theorem tsGroupDone_mem (succ : NodeId → List NodeId) :
    ∀ (gs : List NodeId) (counts : NodeId → Nat) (s : NodeId),
      s ∈ (tsGroupDone succ counts gs).2 ↔
        (1 ≤ counts s ∧
          counts s ≤ ((gs.map (fun g => (succ g).count s)).sum)) := by
  intro gs
  induction gs with
  | nil =>
    intro counts s
    simp only [tsGroupDone, List.not_mem_nil, false_iff, List.map_nil,
      List.sum_nil]
    omega
  | cons g gs ih =>
    intro counts s
    simp only [tsGroupDone, tsDone, List.mem_append, List.map_cons,
      List.sum_cons]
    rw [decSuccessors_mem, ih, decSuccessors_counts]
    omega

/-- A whole-group `done` round collects each node at most once. -/
theorem tsGroupDone_nodup (succ : NodeId → List NodeId) :
    ∀ (gs : List NodeId) (counts : NodeId → Nat),
      (tsGroupDone succ counts gs).2.Nodup := by
  intro gs
  induction gs with
  | nil =>
    intro counts
    simp [tsGroupDone]
  | cons g gs ih =>
    intro counts
    simp only [tsGroupDone, tsDone]
    rw [List.nodup_append]
    refine ⟨decSuccessors_nodup _ _, ih _, ?_⟩
    intro x hx1 hx2
    have h1 := (decSuccessors_mem (succ g) counts x).mp hx1
    have h2 := (tsGroupDone_mem succ gs _ x).mp hx2
    rw [decSuccessors_counts] at h2
    omega

/-- `_get_nodeinfo` does not touch predecessor counts. -/
theorem tsNpred_getOrAdd (ts : TSState) (p m : NodeId) :
    tsNpred (tsGetOrAdd ts p) m = tsNpred ts m := by
  by_cases h : (tsFind ts p).isSome
  · rw [tsNpred, tsFind_getOrAdd_present ts p m h, tsNpred]
  · rw [tsNpred, tsFind_getOrAdd_absent ts p m (Bool.eq_false_iff.mpr h)]
    cases hm : tsFind ts m with
    | some j => simp [tsNpred, hm]
    | none =>
      by_cases hpm : p = m
      · simp [tsNpred, hm, hpm]
      · simp [tsNpred, hm, hpm]

/-- `_get_nodeinfo` does not touch successor lists. -/
theorem tsSucc_getOrAdd (ts : TSState) (p m : NodeId) :
    tsSucc (tsGetOrAdd ts p) m = tsSucc ts m := by
  by_cases h : (tsFind ts p).isSome
  · rw [tsSucc, tsFind_getOrAdd_present ts p m h, tsSucc]
  · rw [tsSucc, tsFind_getOrAdd_absent ts p m (Bool.eq_false_iff.mpr h)]
    cases hm : tsFind ts m with
    | some j => simp [tsSucc, hm]
    | none =>
      by_cases hpm : p = m
      · subst hpm
        simp [tsSucc, hm]
      · simp [tsSucc, hm, hpm]

/-- `_get_nodeinfo` keeps existing nodes and registers at most the fresh
one. -/
theorem mem_tsNodes_getOrAdd (ts : TSState) (p m : NodeId) :
    m ∈ tsNodes (tsGetOrAdd ts p) ↔ (m ∈ tsNodes ts ∨ m = p) := by
  rw [tsNodes_getOrAdd]
  by_cases h : (tsFind ts p).isSome
  · rw [if_pos h]
    constructor
    · exact Or.inl
    · intro hh
      rcases hh with hh | rfl
      · exact hh
      · exact (tsFind_isSome_iff_mem ts m).mp h
  · rw [if_neg h]
    simp [List.mem_append]

/-- `_get_nodeinfo` preserves key distinctness. -/
theorem tsNodes_getOrAdd_nodup (ts : TSState) (p : NodeId)
    (hnd : (tsNodes ts).Nodup) : (tsNodes (tsGetOrAdd ts p)).Nodup := by
  rw [tsNodes_getOrAdd]
  by_cases h : (tsFind ts p).isSome
  · rw [if_pos h]
    exact hnd
  · rw [if_neg h]
    have hp : p ∉ tsNodes ts := by
      intro hh
      exact h ((tsFind_isSome_iff_mem ts p).mpr hh)
    simp [List.nodup_append, hnd, hp]

/-- In-weights are unchanged by a state change that keeps the node list and
every successor list. -/
theorem inWeight_congr {ts ts' : TSState}
    (hnodes : tsNodes ts' = tsNodes ts)
    (hsucc : ∀ p, tsSucc ts' p = tsSucc ts p) (n : NodeId) :
    inWeight ts' [] n = inWeight ts [] n := by
  rw [inWeight_nil_eq, inWeight_nil_eq, hnodes]
  exact sum_map_congr (fun p _ => by rw [hsucc p])

/-- `_get_nodeinfo` keeps every in-weight. -/
theorem inWeight_getOrAdd (ts : TSState) (p n : NodeId) :
    inWeight (tsGetOrAdd ts p) [] n = inWeight ts [] n := by
  by_cases h : (tsFind ts p).isSome
  · exact inWeight_congr (by rw [tsNodes_getOrAdd, if_pos h])
      (fun q => tsSucc_getOrAdd ts p q) n
  · rw [inWeight_nil_eq, inWeight_nil_eq, tsNodes_getOrAdd, if_neg h]
    have hsp : tsSucc ts p = [] := by
      rw [tsSucc]
      cases hf : tsFind ts p with
      | some j => rw [hf] at h; exact absurd rfl h
      | none => rfl
    rw [List.map_append, List.sum_append]
    have h1 : ((tsNodes ts).map
        (fun q => (tsSucc (tsGetOrAdd ts p) q).count n)).sum =
        ((tsNodes ts).map (fun q => (tsSucc ts q).count n)).sum :=
      sum_map_congr (fun q _ => by rw [tsSucc_getOrAdd])
    rw [h1]
    simp [tsSucc_getOrAdd, hsp]

/-- Appending a successor does not change any predecessor count. -/
theorem tsNpred_modify_addSucc (ts : TSState) (p m node : NodeId) :
    tsNpred (tsModify ts p
      (fun i => { i with successors := i.successors ++ [node] })) m =
      tsNpred ts m := by
  rw [tsNpred, tsFind_modify]
  by_cases hmp : m = p
  · rw [if_pos hmp]
    cases hf : tsFind ts m <;> simp [tsNpred, hf]
  · rw [if_neg hmp]
    rfl

/-- The modified node's successor list gains exactly the appended entry. -/
theorem tsSucc_modify_addSucc_self (ts : TSState) (p node : NodeId)
    (hp : (tsFind ts p).isSome) :
    tsSucc (tsModify ts p
      (fun i => { i with successors := i.successors ++ [node] })) p =
      tsSucc ts p ++ [node] := by
  rw [tsSucc, tsFind_modify, if_pos rfl]
  cases hf : tsFind ts p with
  | some i => simp [tsSucc, hf]
  | none =>
    rw [hf] at hp
    simp at hp

/-- Other nodes' successor lists are untouched by `tsModify`. -/
theorem tsSucc_modify_other (ts : TSState) (p m : NodeId)
    (f : TSNodeInfo → TSNodeInfo) (hmp : m ≠ p) :
    tsSucc (tsModify ts p f) m = tsSucc ts m := by
  rw [tsSucc, tsFind_modify, if_neg hmp]
  rfl

/-- Raising a registered node's predecessor count adds exactly the bump. -/
theorem tsNpred_modify_addNpred_self (ts : TSState) (p : NodeId) (k : Nat)
    (hp : (tsFind ts p).isSome) :
    tsNpred (tsModify ts p
      (fun i => { i with npredecessors := i.npredecessors + k })) p =
      tsNpred ts p + k := by
  rw [tsNpred, tsFind_modify, if_pos rfl]
  cases hf : tsFind ts p with
  | some i => simp [tsNpred, hf]
  | none =>
    rw [hf] at hp
    simp at hp

/-- Other nodes' predecessor counts are untouched by `tsModify`. -/
theorem tsNpred_modify_other (ts : TSState) (p m : NodeId)
    (f : TSNodeInfo → TSNodeInfo) (hmp : m ≠ p) :
    tsNpred (tsModify ts p f) m = tsNpred ts m := by
  rw [tsNpred, tsFind_modify, if_neg hmp]
  rfl

/-- Bumping a predecessor count does not change any successor list. -/
theorem tsSucc_modify_addNpred (ts : TSState) (p m : NodeId) (k : Nat) :
    tsSucc (tsModify ts p
      (fun i => { i with npredecessors := i.npredecessors + k })) m =
      tsSucc ts m := by
  rw [tsSucc, tsFind_modify]
  by_cases hmp : m = p
  · rw [if_pos hmp]
    cases hf : tsFind ts m <;> simp [tsSucc, hf]
  · rw [if_neg hmp]
    rfl

/-- Recording one edge instance `p → node` in the sorter: nodes stay
distinct, edges stay registered, predecessor counts are untouched, and only
the target's in-weight rises — by exactly one. -/
theorem addEdgeStep (node p : NodeId) (s s₂ : TSState)
    (hs₂ : s₂ = tsModify (tsGetOrAdd s p) p
      (fun i => { i with successors := i.successors ++ [node] }))
    (hnd : (tsNodes s).Nodup)
    (hcl : ∀ q n, n ∈ tsSucc s q → q ∈ tsNodes s ∧ n ∈ tsNodes s)
    (hnode : node ∈ tsNodes s) :
    (tsNodes s₂).Nodup ∧
    (∀ q n, n ∈ tsSucc s₂ q → q ∈ tsNodes s₂ ∧ n ∈ tsNodes s₂) ∧
    node ∈ tsNodes s₂ ∧
    (∀ m, tsNpred s₂ m = tsNpred s m) ∧
    (∀ m, inWeight s₂ [] m = inWeight s [] m + List.count m [node]) := by
  have hmem₂ : ∀ m, m ∈ tsNodes s₂ ↔ (m ∈ tsNodes s ∨ m = p) := by
    intro m
    rw [hs₂, tsNodes_modify]
    exact mem_tsNodes_getOrAdd s p m
  have hfind₁ : (tsFind (tsGetOrAdd s p) p).isSome :=
    (tsFind_isSome_iff_mem _ p).mpr ((mem_tsNodes_getOrAdd s p p).mpr
      (Or.inr rfl))
  have hsucc_self : tsSucc s₂ p = tsSucc s p ++ [node] := by
    rw [hs₂, tsSucc_modify_addSucc_self _ _ _ hfind₁, tsSucc_getOrAdd]
  have hsucc_other : ∀ q, q ≠ p → tsSucc s₂ q = tsSucc s q := by
    intro q hq
    rw [hs₂, tsSucc_modify_other _ _ _ _ hq, tsSucc_getOrAdd]
  refine ⟨?_, ?_, ?_, ?_, ?_⟩
  · rw [hs₂, tsNodes_modify]
    exact tsNodes_getOrAdd_nodup s p hnd
  · intro q n hn
    by_cases hq : q = p
    · subst hq
      rw [hsucc_self] at hn
      rcases List.mem_append.mp hn with hn | hn
      · obtain ⟨h1, h2⟩ := hcl q n hn
        exact ⟨(hmem₂ q).mpr (Or.inl h1), (hmem₂ n).mpr (Or.inl h2)⟩
      · rcases List.mem_singleton.mp hn with rfl
        exact ⟨(hmem₂ q).mpr (Or.inr rfl), (hmem₂ n).mpr (Or.inl hnode)⟩
    · rw [hsucc_other q hq] at hn
      obtain ⟨h1, h2⟩ := hcl q n hn
      exact ⟨(hmem₂ q).mpr (Or.inl h1), (hmem₂ n).mpr (Or.inl h2)⟩
  · exact (hmem₂ node).mpr (Or.inl hnode)
  · intro m
    rw [hs₂, tsNpred_modify_addSucc, tsNpred_getOrAdd]
  · intro m
    by_cases hp : p ∈ tsNodes s
    · have hfind : (tsFind s p).isSome := (tsFind_isSome_iff_mem s p).mpr hp
      have hnodes₂ : tsNodes s₂ = tsNodes s := by
        rw [hs₂, tsNodes_modify, tsNodes_getOrAdd, if_pos hfind]
      rw [inWeight_nil_eq, inWeight_nil_eq, hnodes₂]
      exact sum_map_update hnd hp
        (fun q hq => by rw [hsucc_other q hq])
        (by rw [hsucc_self, List.count_append])
    · have hfind : ¬ ((tsFind s p).isSome = true) := by
        intro hh
        exact hp ((tsFind_isSome_iff_mem s p).mp hh)
      have hnodes₂ : tsNodes s₂ = tsNodes s ++ [p] := by
        rw [hs₂, tsNodes_modify, tsNodes_getOrAdd, if_neg hfind]
      have hsp : tsSucc s p = [] := by
        rw [tsSucc]
        cases hf : tsFind s p with
        | some j =>
          rw [hf] at hfind
          exact absurd rfl hfind
        | none => rfl
      rw [inWeight_nil_eq, inWeight_nil_eq, hnodes₂, List.map_append,
        List.sum_append]
      have hold : ((tsNodes s).map (fun q => (tsSucc s₂ q).count m)).sum =
          ((tsNodes s).map (fun q => (tsSucc s q).count m)).sum :=
        sum_map_congr (fun q hq => by
          rw [hsucc_other q (fun hh => hp (hh ▸ hq))])
      rw [hold]
      simp [hsucc_self, hsp]

/-- Folding the predecessor registrations of one `add` call restores the
count/in-weight balance: the target's count was pre-bumped by the number of
predecessors still to be recorded. -/
theorem addFold (node : NodeId) :
    ∀ (ps : List NodeId) (s : TSState),
      (tsNodes s).Nodup →
      (∀ q n, n ∈ tsSucc s q → q ∈ tsNodes s ∧ n ∈ tsNodes s) →
      node ∈ tsNodes s →
      (∀ m, m ≠ node → tsNpred s m = inWeight s [] m) →
      tsNpred s node = inWeight s [] node + ps.length →
      TSWf (ps.foldl (fun ts p =>
        tsModify (tsGetOrAdd ts p) p
          (fun i => { i with successors := i.successors ++ [node] })) s) := by
  intro ps
  induction ps with
  | nil =>
    intro s hnd hcl hnode hoth hself
    simp only [List.foldl_nil]
    refine ⟨hnd, hcl, ?_⟩
    intro m
    by_cases hm : m = node
    · subst hm
      rw [hself]
      simp
    · exact hoth m hm
  | cons p ps ih =>
    intro s hnd hcl hnode hoth hself
    simp only [List.foldl_cons]
    obtain ⟨hnd₂, hcl₂, hnode₂, hnp₂, hw₂⟩ :=
      addEdgeStep node p s _ rfl hnd hcl hnode
    apply ih
    · exact hnd₂
    · exact hcl₂
    · exact hnode₂
    · intro m hm
      have hc0 : List.count m [node] = 0 :=
        List.count_eq_zero.mpr (by simp [hm])
      rw [hnp₂ m, hoth m hm, hw₂ m, hc0]
      simp
    · have hc1 : List.count node [node] = 1 := by
        rw [List.count_cons_self, List.count_nil]
      rw [hnp₂ node, hself, hw₂ node, hc1]
      simp only [List.length_cons]
      omega

/-- `TopologicalSorter.add` preserves sorter well-formedness. -/
theorem tsAdd_wf (ts : TSState) (node : NodeId) (preds : List NodeId)
    (h : TSWf ts) : TSWf (tsAdd ts node preds) := by
  obtain ⟨hnd, hcl, hweq⟩ := h
  have hnode₁ : node ∈ tsNodes (tsGetOrAdd ts node) :=
    (mem_tsNodes_getOrAdd ts node node).mpr (Or.inr rfl)
  have hnd₁ : (tsNodes (tsGetOrAdd ts node)).Nodup :=
    tsNodes_getOrAdd_nodup ts node hnd
  have hcl₁ : ∀ q n, n ∈ tsSucc (tsGetOrAdd ts node) q →
      q ∈ tsNodes (tsGetOrAdd ts node) ∧
      n ∈ tsNodes (tsGetOrAdd ts node) := by
    intro q n hn
    rw [tsSucc_getOrAdd] at hn
    obtain ⟨h1, h2⟩ := hcl q n hn
    exact ⟨(mem_tsNodes_getOrAdd ts node q).mpr (Or.inl h1),
      (mem_tsNodes_getOrAdd ts node n).mpr (Or.inl h2)⟩
  have hfind₁ : (tsFind (tsGetOrAdd ts node) node).isSome :=
    (tsFind_isSome_iff_mem _ node).mpr hnode₁
  have hnodes₂ :
      tsNodes (tsModify (tsGetOrAdd ts node)
        node (fun i => { i with npredecessors := i.npredecessors +
          preds.length })) = tsNodes (tsGetOrAdd ts node) :=
    tsNodes_modify _ _ _
  have hsucc₂ : ∀ m,
      tsSucc (tsModify (tsGetOrAdd ts node)
        node (fun i => { i with npredecessors := i.npredecessors +
          preds.length })) m = tsSucc (tsGetOrAdd ts node) m :=
    fun m => tsSucc_modify_addNpred _ _ _ _
  have hw₂ : ∀ m,
      inWeight (tsModify (tsGetOrAdd ts node)
        node (fun i => { i with npredecessors := i.npredecessors +
          preds.length })) [] m = inWeight ts [] m := by
    intro m
    rw [inWeight_congr hnodes₂ hsucc₂ m]
    exact inWeight_getOrAdd ts node m
  simp only [tsAdd]
  apply addFold
  · rw [hnodes₂]
    exact hnd₁
  · intro q n hn
    rw [hsucc₂ q] at hn
    obtain ⟨h1, h2⟩ := hcl₁ q n hn
    rw [hnodes₂]
    exact ⟨h1, h2⟩
  · rw [hnodes₂]
    exact hnode₁
  · intro m hm
    rw [tsNpred_modify_other _ _ _ _ hm, tsNpred_getOrAdd, hw₂ m]
    exact hweq m
  · rw [tsNpred_modify_addNpred_self _ _ _ hfind₁, tsNpred_getOrAdd, hw₂ node]
    rw [hweq node]

/-- The sorter built from the recorded `add` calls is well-formed. -/
theorem TSWf_buildTS (calls : List (NodeId × List NodeId)) :
    TSWf (buildTS calls) := by
  have hgen : ∀ (cs : List (NodeId × List NodeId)) (ts : TSState),
      TSWf ts → TSWf (cs.foldl (fun ts c => tsAdd ts c.1 c.2) ts) := by
    intro cs
    induction cs with
    | nil =>
      intro ts h
      exact h
    | cons c cs ih =>
      intro ts h
      exact ih _ (tsAdd_wf _ _ _ h)
  apply hgen
  refine ⟨?_, ?_, ?_⟩
  · simp [tsNodes]
  · intro p n hn
    simp [tsSucc, tsFind, infoLookup] at hn
  · intro n
    simp [tsNpred, tsFind, infoLookup, inWeight, tsNodes]

/-- The invariants of the emission loop restricted to the emitted prefix. -/
theorem sortAccBase (ts : TSState) (ready acc : List NodeId)
    (h1 : (acc ++ ready).Nodup)
    (h2 : ∀ n, n ∈ acc ++ ready → n ∈ tsNodes ts)
    (h3 : ∀ p n l₁ l₂, acc ++ ready = l₁ ++ n :: l₂ → n ∈ tsSucc ts p →
      p ∈ l₁) :
    acc.Nodup ∧ (∀ n, n ∈ acc → n ∈ tsNodes ts) ∧
    (∀ p n l₁ l₂, acc = l₁ ++ n :: l₂ → n ∈ tsSucc ts p → p ∈ l₁) := by
  refine ⟨(List.nodup_append.mp h1).1,
    fun n hn => h2 n (List.mem_append.mpr (Or.inl hn)), ?_⟩
  intro p n l₁ l₂ heq hsucc
  have hfull : acc ++ ready = l₁ ++ n :: (l₂ ++ ready) := by
    rw [heq, List.append_assoc, List.cons_append]
  exact h3 p n l₁ (l₂ ++ ready) hfull hsucc

/-- Soundness of `static_order`'s emission loop: starting from counts that
agree with the in-weights over the not-yet-done nodes and a ready list of
zero-count nodes whose predecessors are all emitted, the loop only ever
emits each node once, emits only registered nodes, and emits every
predecessor of an emitted node strictly before it. -/
theorem sortLoopTopo (ts : TSState)
    (hnd : (tsNodes ts).Nodup)
    (hedge : ∀ p n, n ∈ tsSucc ts p → p ∈ tsNodes ts ∧ n ∈ tsNodes ts) :
    ∀ (fuel : Nat) (counts : NodeId → Nat) (ready acc : List NodeId),
      (acc ++ ready).Nodup →
      (∀ n, n ∈ acc ++ ready → n ∈ tsNodes ts) →
      (∀ n, counts n = inWeight ts acc n) →
      (∀ n, n ∈ ready → counts n = 0) →
      (∀ p n l₁ l₂, acc ++ ready = l₁ ++ n :: l₂ → n ∈ tsSucc ts p →
        p ∈ l₁) →
      (sortLoop (tsSucc ts) fuel counts ready acc).Nodup ∧
      (∀ n, n ∈ sortLoop (tsSucc ts) fuel counts ready acc →
        n ∈ tsNodes ts) ∧
      (∀ p n l₁ l₂,
        sortLoop (tsSucc ts) fuel counts ready acc = l₁ ++ n :: l₂ →
        n ∈ tsSucc ts p → p ∈ l₁) := by
  intro fuel
  induction fuel with
  | zero =>
    intro counts ready acc hnodup hmem hcw hr0 htopo
    cases ready with
    | nil =>
      simp only [sortLoop]
      exact sortAccBase ts [] acc hnodup hmem htopo
    | cons r rs =>
      simp only [sortLoop]
      exact sortAccBase ts (r :: rs) acc hnodup hmem htopo
  | succ f ih =>
    intro counts ready acc hnodup hmem hcw hr0 htopo
    cases ready with
    | nil =>
      simp only [sortLoop]
      exact sortAccBase ts [] acc hnodup hmem htopo
    | cons r rs =>
      have hres : sortLoop (tsSucc ts) (f + 1) counts (r :: rs) acc =
          sortLoop (tsSucc ts) f
            (tsGroupDone (tsSucc ts) counts (r :: rs)).1
            (tsGroupDone (tsSucc ts) counts (r :: rs)).2
            (acc ++ r :: rs) := by
        simp only [sortLoop]
      rw [hres]
      have hndparts := List.nodup_append.mp hnodup
      have hRnodup : (r :: rs).Nodup := hndparts.2.1
      have hdisj : ∀ x, x ∈ acc → x ∈ r :: rs → False :=
        fun x hx1 hx2 => hndparts.2.2 hx1 hx2
      have hRreg : ∀ g, g ∈ r :: rs → g ∈ tsNodes ts :=
        fun g hg => hmem g (List.mem_append.mpr (Or.inr hg))
      have hRnotacc : ∀ g, g ∈ r :: rs → g ∉ acc :=
        fun g hg hga => hdisj g hga hg
      have haccZero : ∀ n, n ∈ acc → counts n = 0 := by
        intro n hn
        rw [hcw n]
        by_contra hne
        obtain ⟨p, hpreg, hpacc, hpsucc⟩ := inWeight_pos_exists hne
        obtain ⟨s₁, s₂, hs⟩ := List.append_of_mem hn
        have hfull : acc ++ r :: rs = s₁ ++ n :: (s₂ ++ r :: rs) := by
          rw [hs, List.append_assoc, List.cons_append]
        have hp := htopo p n s₁ (s₂ ++ r :: rs) hfull hpsucc
        exact hpacc (by
          rw [hs]
          exact List.mem_append.mpr (Or.inl hp))
      have hallZero : ∀ n, n ∈ acc ++ r :: rs → counts n = 0 := by
        intro n hn
        rcases List.mem_append.mp hn with h | h
        · exact haccZero n h
        · exact hr0 n h
      have hsplit : ∀ n, inWeight ts acc n =
          inWeight ts (acc ++ r :: rs) n +
          (((r :: rs).map (fun g => (tsSucc ts g).count n)).sum) :=
        fun n => inWeight_removeGroup hnd (r :: rs) acc n hRnodup
          (fun g hg => ⟨hRreg g hg, hRnotacc g hg⟩)
      have hcw' : ∀ n, (tsGroupDone (tsSucc ts) counts (r :: rs)).1 n =
          inWeight ts (acc ++ r :: rs) n := by
        intro n
        rw [tsGroupDone_counts, hcw n, hsplit n]
        omega
      have hnewmem : ∀ n,
          n ∈ (tsGroupDone (tsSucc ts) counts (r :: rs)).2 ↔
          (1 ≤ counts n ∧ counts n ≤
            (((r :: rs).map (fun g => (tsSucc ts g).count n)).sum)) :=
        fun n => tsGroupDone_mem (tsSucc ts) (r :: rs) counts n
      have hnewdisj : ∀ x, x ∈ acc ++ r :: rs →
          x ∈ (tsGroupDone (tsSucc ts) counts (r :: rs)).2 → False := by
        intro x hx1 hx2
        have h1 := hallZero x hx1
        have h2 := (hnewmem x).mp hx2
        omega
      have hnewreg : ∀ n,
          n ∈ (tsGroupDone (tsSucc ts) counts (r :: rs)).2 →
          n ∈ tsNodes ts := by
        intro n hn
        have h2 := (hnewmem n).mp hn
        have hne : inWeight ts acc n ≠ 0 := by
          rw [← hcw n]
          omega
        obtain ⟨p, _, _, hpsucc⟩ := inWeight_pos_exists hne
        exact (hedge p n hpsucc).2
      have hinacc : ∀ p n,
          n ∈ (tsGroupDone (tsSucc ts) counts (r :: rs)).2 →
          n ∈ tsSucc ts p → p ∈ acc ++ r :: rs := by
        intro p n hnR hsucc
        by_contra hpn
        have h2 := (hnewmem n).mp hnR
        have h0 : inWeight ts (acc ++ r :: rs) n = 0 := by
          rw [← hcw' n, tsGroupDone_counts]
          omega
        have hpreg := (hedge p n hsucc).1
        exact (inWeight_zero_count h0 hpreg hpn) hsucc
      apply ih
      · rw [List.nodup_append]
        exact ⟨hnodup, tsGroupDone_nodup _ _ _, hnewdisj⟩
      · intro n hn
        rcases List.mem_append.mp hn with h | h
        · exact hmem n h
        · exact hnewreg n h
      · exact hcw'
      · intro n hn
        have h2 := (hnewmem n).mp hn
        rw [tsGroupDone_counts]
        omega
      · intro p n l₁ l₂ heq hsucc
        rcases List.append_eq_append_iff.mp heq with ⟨a', ha1, ha2⟩ |
          ⟨c', hc1, hc2⟩
        · have hnnew : n ∈ (tsGroupDone (tsSucc ts) counts (r :: rs)).2 := by
            rw [ha2]
            exact List.mem_append.mpr (Or.inr (List.mem_cons_self n l₂))
          have hpmem := hinacc p n hnnew hsucc
          rw [ha1]
          exact List.mem_append.mpr (Or.inl hpmem)
        · cases c' with
          | nil =>
            have hl₁ : l₁ = acc ++ r :: rs := by
              rw [List.append_nil] at hc1
              exact hc1.symm
            have hnnew : n ∈ (tsGroupDone (tsSucc ts) counts (r :: rs)).2 := by
              rw [List.nil_append] at hc2
              rw [← hc2]
              exact List.mem_cons_self n l₂
            have hpmem := hinacc p n hnnew hsucc
            rw [hl₁]
            exact hpmem
          | cons c cs =>
            simp only [List.cons_append] at hc2
            injection hc2 with hh1 hh2
            rw [← hh1] at hc1
            exact htopo p n l₁ cs hc1 hsucc

/-- `static_order` on a well-formed sorter yields a duplicate-free list of
registered nodes in which every recorded predecessor of an emitted node is
emitted strictly before it. -/
theorem staticOrderTopo (ts : TSState) (hwf : TSWf ts) :
    (static_order ts).Nodup ∧
    (∀ n, n ∈ static_order ts → n ∈ tsNodes ts) ∧
    (∀ p n l₁ l₂, static_order ts = l₁ ++ n :: l₂ →
      n ∈ tsSucc ts p → p ∈ l₁) := by
  obtain ⟨hnd, hedge, hweq⟩ := hwf
  have hsub : ((ts.node2info.filter
      (fun e => e.2.npredecessors == 0)).map (fun e => e.1)).Sublist
      (tsNodes ts) :=
    List.Sublist.map _ (List.filter_sublist _)
  have hready0 : ∀ n, n ∈ (ts.node2info.filter
      (fun e => e.2.npredecessors == 0)).map (fun e => e.1) →
      tsNpred ts n = 0 := by
    intro n hn
    rcases List.mem_map.mp hn with ⟨e, hef, rfl⟩
    rcases List.mem_filter.mp hef with ⟨hel, hez⟩
    have hfind : tsFind ts e.1 = some e.2 :=
      infoLookup_mem (by rw [Prod.mk.eta]; exact hel) hnd
    rw [tsNpred, hfind]
    exact eq_of_beq hez
  have h := sortLoopTopo ts hnd hedge (ts.node2info.length + 1)
    (fun n => tsNpred ts n)
    ((ts.node2info.filter (fun e => e.2.npredecessors == 0)).map
      (fun e => e.1)) []
    (by simpa using hsub.nodup hnd)
    (by
      intro n hn
      rw [List.nil_append] at hn
      exact hsub.subset hn)
    (fun n => hweq n)
    hready0
    (by
      intro p n l₁ l₂ heq hsucc
      rw [List.nil_append] at heq
      have hn0 : tsNpred ts n = 0 := by
        apply hready0 n
        rw [heq]
        exact List.mem_append.mpr (Or.inr (List.mem_cons_self n l₂))
      rw [hweq n] at hn0
      exact absurd hsucc
        (inWeight_zero_count hn0 (hedge p n hsucc).1 (List.not_mem_nil p)))
  exact h

/-- C7 (amended): the composition order `add_packs` computes is a
topological order of the constructed graph — duplicate-free, drawn from the
registered nodes, with every recorded predecessor emitted strictly before
its successor.  The tie-break half of the claim is false: ready nodes are
emitted in registration (insertion) order, not by a (kind, name, version)
key — see `c7_tie_break_counterexample`. -/
theorem c7_topological_order_amended (fuel : Nat)
    (ws bps packs : List NodeId) (store0 : Store) (st : PlanState)
    (hok : plan_packs fuel ws bps packs store0 = .ok st) :
    add_packs_order fuel ws bps packs store0 =
      .ok (static_order (buildTS st.sorterCalls)) ∧
    (static_order (buildTS st.sorterCalls)).Nodup ∧
    (∀ n, n ∈ static_order (buildTS st.sorterCalls) →
      n ∈ tsNodes (buildTS st.sorterCalls)) ∧
    (∀ p n l₁ l₂, static_order (buildTS st.sorterCalls) = l₁ ++ n :: l₂ →
      n ∈ tsSucc (buildTS st.sorterCalls) p → p ∈ l₁) := by
  obtain ⟨h1, h2, h3⟩ :=
    staticOrderTopo (buildTS st.sorterCalls) (TSWf_buildTS _)
  refine ⟨?_, h1, h2, h3⟩
  simp only [add_packs_order, hok, except_bind_ok]

/-- C7 witness: on the three-node heap of `c7Store`, the planner's graph
yields the order `[1, 2, 3]`, which the amended theorem certifies as
topological. -/
theorem c7_topological_order_amended_witness :
    plan_packs 10 [1, 2] [] [1, 2] c7Store = .ok c7Planned ∧
    add_packs_order 10 [1, 2] [] [1, 2] c7Store =
      .ok (static_order (buildTS c7Planned.sorterCalls)) ∧
    static_order (buildTS c7Planned.sorterCalls) = [1, 2, 3] :=
  ⟨by rfl,
    (c7_topological_order_amended 10 [1, 2] [] [1, 2] c7Store c7Planned
      (by rfl)).1,
    by rfl⟩

/-- C7 counterexample to the claimed tie-break: workspace QUERY pack 1
(`a/zzz`) and CUSTOMIZATION pack 2 (`a/aaa`) are unconstrained relative to
each other (no recorded edge touches both, both start with zero
predecessors), so the claimed (kind, name, version) key would emit 2 before
1 — the spec-modelled comparator computes `[2, 3, 1]` — but `add_packs`
emits `[1, 2, 3]`: insertion order among ties, the claimed key order is not
applied. -/
theorem c7_tie_break_counterexample :
    add_packs_order 10 [1, 2] [] [1, 2] c7Store = .ok [1, 2, 3] ∧
    plan_packs 10 [1, 2] [] [1, 2] c7Store = .ok c7Planned ∧
    claimed_order c7Planned.store (buildTS c7Planned.sorterCalls) =
      [2, 3, 1] ∧
    tsSucc (buildTS c7Planned.sorterCalls) 1 = [] ∧
    tsSucc (buildTS c7Planned.sorterCalls) 2 = [3] ∧
    tsNpred (buildTS c7Planned.sorterCalls) 1 = 0 ∧
    tsNpred (buildTS c7Planned.sorterCalls) 2 = 0 ∧
    (storeGet c7Store 1).map PackNode.kind =
      some CodeQLPackKind.QUERY_PACK ∧
    (storeGet c7Store 2).map PackNode.kind =
      some CodeQLPackKind.CUSTOMIZATION_PACK ∧
    ((storeGet c7Store 2).bind (fun a =>
      (storeGet c7Store 1).map (fun b => claimKeyLt a b))) = some true ∧
    ([1, 2, 3] : List NodeId) ≠ [2, 3, 1] :=
  ⟨rfl, rfl, rfl, rfl, rfl, rfl, rfl, rfl, rfl, rfl, by decide⟩

/-- Path-prefix reflexivity: every member is a descendant of itself. -/
theorem pathLeadsTo_refl : ∀ (l : Path), pathLeadsTo l l = true := by
  intro l
  induction l with
  | nil => rfl
  | cons a rest ih => simp [pathLeadsTo, ih]

/-- A per-language exclusion rule reaches a tools entry only if the platform
component matches. -/
theorem notLead_toolsPath {sub pdir : String} (hne : (sub == pdir) = false)
    (root lang₁ lang : String) :
    pathLeadsTo (root :: (([lang₁, "tools"] : Path) ++ [sub]))
      (root :: [lang, "tools", pdir]) = false := by
  simp [pathLeadsTo, hne]

/-- A top-level tools exclusion rule never reaches below a language's tools
directory. -/
theorem notLead_topTools {sub : String} (hne : (sub == "tools") = false)
    (root lang pdir : String) :
    pathLeadsTo (root :: ((["tools"] : Path) ++ [sub]))
      (root :: [lang, "tools", pdir]) = false := by
  simp [pathLeadsTo, hne]

/-- A two-component rule whose second component is not `tools` never reaches
below a language's tools directory. -/
theorem notLead_sndNotTools {b : String} (hne : (b == "tools") = false)
    (root a lang pdir : String) :
    pathLeadsTo (root :: ([a, b] : Path)) (root :: [lang, "tools", pdir]) =
      false := by
  simp [pathLeadsTo, hne]

/-- A three-component rule whose second component is not `tools` never
reaches below a language's tools directory. -/
theorem notLead_sndNotTools3 {b : String} (hne : (b == "tools") = false)
    (root a c lang pdir : String) :
    pathLeadsTo (root :: ([a, b, c] : Path))
      (root :: [lang, "tools", pdir]) = false := by
  simp [pathLeadsTo, hne]

/-- A one-component rule other than the language never reaches the
language's tools directory. -/
theorem notLead_oneNotLang {a lang : String} (hne : (a == lang) = false)
    (root : String) (px : Path) :
    pathLeadsTo (root :: ([a] : Path)) (root :: (lang :: px)) = false := by
  simp [pathLeadsTo, hne]

/-- Generic kept-entry argument: when every non-platform subdirectory rule
misses the target platform directory (and `tools`), and every manual
exclusion misses the language's tools entry, the filter passes the
`<lang>/tools/<platform-dir>` entry through. -/
theorem keptCore (languages : List String) (P : BundlePlatform)
    (root lang : String) (hlang : lang ∈ languages)
    (hcd : lang ≠ "codeql.exe")
    (subs : List Path)
    (hspec : ∀ tp, specializePath P tp = subs.map (fun s => tp ++ s))
    (hsubs : ∀ s, s ∈ subs → ∃ nm, s = ([nm] : Path) ∧
      (nm == platformDirName P) = false ∧ (nm == "tools") = false)
    (extra : List Path)
    (hex : exclusion_paths languages P =
      get_nonplatform_tool_paths languages P ++ extra)
    (hextra : ∀ e, e ∈ extra → pathLeadsTo (root :: e)
      (root :: [lang, "tools", platformDirName P]) = false) :
    tar_filter languages P (root :: [lang, "tools", platformDirName P]) =
      some (root :: [lang, "tools", platformDirName P]) := by
  have hfalse : ∀ ex, ex ∈ exclusion_paths languages P →
      pathLeadsTo (root :: ex)
        (root :: [lang, "tools", platformDirName P]) = false := by
    intro ex hexmem
    rw [hex] at hexmem
    rcases List.mem_append.mp hexmem with hg | hg
    · rcases List.mem_flatten.mp hg with ⟨cand, hcand, hexc⟩
      rcases List.mem_map.mp hcand with ⟨tp, htp, rfl⟩
      rw [hspec tp] at hexc
      rcases List.mem_map.mp hexc with ⟨sp, hs, rfl⟩
      obtain ⟨nm, rfl, hnm1, hnm2⟩ := hsubs sp hs
      simp only [relative_tools_paths] at htp
      rcases List.mem_append.mp htp with htp | htp
      · rcases List.mem_map.mp htp with ⟨l', _, rfl⟩
        exact notLead_toolsPath hnm1 root l' lang
      · rcases List.mem_singleton.mp htp with rfl
        exact notLead_topTools hnm2 root lang _
    · exact hextra ex hg
  have hany : (((exclusion_paths languages P).map (fun p => root :: p)).any
      (fun p => pathLeadsTo p
        (root :: [lang, "tools", platformDirName P]))) = false := by
    rw [List.any_eq_false]
    intro pp hpp
    rcases List.mem_map.mp hpp with ⟨ex, hexmem, rfl⟩
    rw [hfalse ex hexmem]
    exact Bool.false_ne_true
  simp only [tar_filter]
  rw [if_neg (by rw [hany]; exact Bool.false_ne_true)]

/-- Generic dropped-entry argument: a registered language's tools directory
for any platform whose directory name is among the excluded subdirectory
rules is filtered out (the rule applies to the entry itself). -/
theorem dropCore (languages : List String) (P : BundlePlatform)
    (root lang qd : String) (hlang : lang ∈ languages)
    (subs : List Path)
    (hspec : ∀ tp, specializePath P tp = subs.map (fun s => tp ++ s))
    (hqd : ([qd] : Path) ∈ subs)
    (extra : List Path)
    (hex : exclusion_paths languages P =
      get_nonplatform_tool_paths languages P ++ extra) :
    tar_filter languages P (root :: [lang, "tools", qd]) = none := by
  have hmem : ([lang, "tools", qd] : Path) ∈ exclusion_paths languages P := by
    rw [hex]
    apply List.mem_append.mpr
    apply Or.inl
    apply List.mem_flatten.mpr
    refine ⟨specializePath P [lang, "tools"], ?_, ?_⟩
    · apply List.mem_map.mpr
      refine ⟨[lang, "tools"], ?_, rfl⟩
      simp only [relative_tools_paths]
      exact List.mem_append.mpr (Or.inl (List.mem_map.mpr ⟨lang, hlang, rfl⟩))
    · rw [hspec]
      exact List.mem_map.mpr ⟨[qd], hqd, rfl⟩
  have hany : (((exclusion_paths languages P).map (fun p => root :: p)).any
      (fun p => pathLeadsTo p (root :: [lang, "tools", qd]))) = true :=
    List.any_eq_true.mpr ⟨root :: [lang, "tools", qd],
      List.mem_map.mpr ⟨[lang, "tools", qd], hmem, rfl⟩,
      pathLeadsTo_refl _⟩
  simp only [tar_filter]
  rw [if_pos hany]

/-- C5-like membership facts for the non-platform subdirectory names of each
target platform, with witnesses for the singleton decomposition. -/
theorem linuxSubsFacts : ∀ s, s ∈ osx64_subpaths ++ win64_subpaths →
    ∃ nm, s = ([nm] : Path) ∧
      (nm == platformDirName BundlePlatform.LINUX) = false ∧
      (nm == "tools") = false := by
  intro s hs
  have hs' : s = ["osx64"] ∨ s = ["macos"] ∨ s = ["win64"] ∨
      s = ["windows"] := by
    simpa [osx64_subpaths, win64_subpaths] using hs
  rcases hs' with rfl | rfl | rfl | rfl
  · exact ⟨"osx64", rfl, by decide, by decide⟩
  · exact ⟨"macos", rfl, by decide, by decide⟩
  · exact ⟨"win64", rfl, by decide, by decide⟩
  · exact ⟨"windows", rfl, by decide, by decide⟩

/-- The non-platform subdirectory names when targeting Windows. -/
theorem windowsSubsFacts : ∀ s, s ∈ osx64_subpaths ++ linux64_subpaths →
    ∃ nm, s = ([nm] : Path) ∧
      (nm == platformDirName BundlePlatform.WINDOWS) = false ∧
      (nm == "tools") = false := by
  intro s hs
  have hs' : s = ["osx64"] ∨ s = ["macos"] ∨ s = ["linux64"] ∨
      s = ["linux"] := by
    simpa [osx64_subpaths, linux64_subpaths] using hs
  rcases hs' with rfl | rfl | rfl | rfl
  · exact ⟨"osx64", rfl, by decide, by decide⟩
  · exact ⟨"macos", rfl, by decide, by decide⟩
  · exact ⟨"linux64", rfl, by decide, by decide⟩
  · exact ⟨"linux", rfl, by decide, by decide⟩

/-- The non-platform subdirectory names when targeting OSX. -/
theorem osxSubsFacts : ∀ s, s ∈ linux64_subpaths ++ win64_subpaths →
    ∃ nm, s = ([nm] : Path) ∧
      (nm == platformDirName BundlePlatform.OSX) = false ∧
      (nm == "tools") = false := by
  intro s hs
  have hs' : s = ["linux64"] ∨ s = ["linux"] ∨ s = ["win64"] ∨
      s = ["windows"] := by
    simpa [linux64_subpaths, win64_subpaths] using hs
  rcases hs' with rfl | rfl | rfl | rfl
  · exact ⟨"linux64", rfl, by decide, by decide⟩
  · exact ⟨"linux", rfl, by decide, by decide⟩
  · exact ⟨"win64", rfl, by decide, by decide⟩
  · exact ⟨"windows", rfl, by decide, by decide⟩

/-- The manual exclusions appended for a Linux target. -/
theorem linuxExclusionsEq (languages : List String) :
    exclusion_paths languages BundlePlatform.LINUX =
      get_nonplatform_tool_paths languages BundlePlatform.LINUX ++
      [["codeql.exe"], ["swift", "qltest", "osx64"],
       ["swift", "resource-dir", "osx64"]] := by
  simp [exclusion_paths]

/-- The manual exclusions appended for a Windows target. -/
theorem windowsExclusionsEq (languages : List String) :
    exclusion_paths languages BundlePlatform.WINDOWS =
      get_nonplatform_tool_paths languages BundlePlatform.WINDOWS ++
      [["swift", "qltest"], ["swift", "resource-dir"]] := by
  simp [exclusion_paths]

/-- The manual exclusions appended for an OSX target. -/
theorem osxExclusionsEq (languages : List String) :
    exclusion_paths languages BundlePlatform.OSX =
      get_nonplatform_tool_paths languages BundlePlatform.OSX ++
      [["codeql.exe"], ["swift", "qltest", "linux64"],
       ["swift", "resource-dir", "linux64"]] := by
  simp [exclusion_paths]

/-- C8: per-platform archiving. A tar entry is dropped exactly when its path
is a descendant of one of the assembled exclusion prefixes after the
archive's top-level component is prepended to each rule (and is otherwise
passed through unchanged); consequently, for every detected language `lang`
(no real CodeQL language is named `codeql.exe`), the target platform's
`<lang>/tools/<p-dir>` entry is kept while `<lang>/tools/<q-dir>` is dropped
for every other platform `q`. -/
theorem c8_platform_filter (languages : List String)
    (platform q : BundlePlatform) (root lang : String) (rest : Path)
    (hlang : lang ∈ languages) (hq : q ≠ platform)
    (hcd : lang ≠ "codeql.exe") :
    (tar_filter languages platform (root :: rest) = none ↔
      ∃ ex, ex ∈ exclusion_paths languages platform ∧
        pathLeadsTo (root :: ex) (root :: rest) = true) ∧
    (tar_filter languages platform (root :: rest) = none ∨
      tar_filter languages platform (root :: rest) = some (root :: rest)) ∧
    tar_filter languages platform
      (root :: [lang, "tools", platformDirName platform]) =
      some (root :: [lang, "tools", platformDirName platform]) ∧
    tar_filter languages platform
      (root :: [lang, "tools", platformDirName q]) = none := by
  refine ⟨?_, ?_, ?_, ?_⟩
  · constructor
    · intro hnone
      by_cases hany : (((exclusion_paths languages platform).map
          (fun p => root :: p)).any
          (fun p => pathLeadsTo p (root :: rest))) = true
      · rcases List.any_eq_true.mp hany with ⟨pp, hppmem, hpp⟩
        rcases List.mem_map.mp hppmem with ⟨ex, hexmem, rfl⟩
        exact ⟨ex, hexmem, hpp⟩
      · exfalso
        simp only [tar_filter] at hnone
        rw [if_neg hany] at hnone
        exact Option.noConfusion hnone
    · rintro ⟨ex, hexmem, hlead⟩
      have hany : (((exclusion_paths languages platform).map
          (fun p => root :: p)).any
          (fun p => pathLeadsTo p (root :: rest))) = true :=
        List.any_eq_true.mpr ⟨root :: ex,
          List.mem_map.mpr ⟨ex, hexmem, rfl⟩, hlead⟩
      simp only [tar_filter]
      rw [if_pos hany]
  · by_cases hany : (((exclusion_paths languages platform).map
        (fun p => root :: p)).any
        (fun p => pathLeadsTo p (root :: rest))) = true
    · left
      simp only [tar_filter]
      rw [if_pos hany]
    · right
      simp only [tar_filter]
      rw [if_neg hany]
  · cases platform with
    | LINUX =>
      refine keptCore languages .LINUX root lang hlang hcd
        (osx64_subpaths ++ win64_subpaths) (fun tp => rfl) linuxSubsFacts
        [["codeql.exe"], ["swift", "qltest", "osx64"],
         ["swift", "resource-dir", "osx64"]]
        (linuxExclusionsEq languages) ?_
      intro e he
      have he' : e = ["codeql.exe"] ∨ e = ["swift", "qltest", "osx64"] ∨
          e = ["swift", "resource-dir", "osx64"] := by simpa using he
      rcases he' with rfl | rfl | rfl
      · exact notLead_oneNotLang (beq_eq_false_iff_ne.mpr (Ne.symm hcd))
          root _
      · exact @notLead_sndNotTools3 "qltest" (by decide) root "swift" "osx64"
          lang _
      · exact @notLead_sndNotTools3 "resource-dir" (by decide) root "swift"
          "osx64" lang _
    | WINDOWS =>
      refine keptCore languages .WINDOWS root lang hlang hcd
        (osx64_subpaths ++ linux64_subpaths) (fun tp => rfl) windowsSubsFacts
        [["swift", "qltest"], ["swift", "resource-dir"]]
        (windowsExclusionsEq languages) ?_
      intro e he
      have he' : e = ["swift", "qltest"] ∨ e = ["swift", "resource-dir"] := by
        simpa using he
      rcases he' with rfl | rfl
      · exact @notLead_sndNotTools "qltest" (by decide) root "swift" lang _
      · exact @notLead_sndNotTools "resource-dir" (by decide) root "swift"
          lang _
    | OSX =>
      refine keptCore languages .OSX root lang hlang hcd
        (linux64_subpaths ++ win64_subpaths) (fun tp => rfl) osxSubsFacts
        [["codeql.exe"], ["swift", "qltest", "linux64"],
         ["swift", "resource-dir", "linux64"]]
        (osxExclusionsEq languages) ?_
      intro e he
      have he' : e = ["codeql.exe"] ∨ e = ["swift", "qltest", "linux64"] ∨
          e = ["swift", "resource-dir", "linux64"] := by simpa using he
      rcases he' with rfl | rfl | rfl
      · exact notLead_oneNotLang (beq_eq_false_iff_ne.mpr (Ne.symm hcd))
          root _
      · exact @notLead_sndNotTools3 "qltest" (by decide) root "swift"
          "linux64" lang _
      · exact @notLead_sndNotTools3 "resource-dir" (by decide) root "swift"
          "linux64" lang _
  · cases platform with
    | LINUX =>
      cases q with
      | LINUX => exact absurd rfl hq
      | WINDOWS =>
        exact dropCore languages .LINUX root lang "win64" hlang
          (osx64_subpaths ++ win64_subpaths) (fun tp => rfl) (by decide)
          [["codeql.exe"], ["swift", "qltest", "osx64"],
           ["swift", "resource-dir", "osx64"]] (linuxExclusionsEq languages)
      | OSX =>
        exact dropCore languages .LINUX root lang "osx64" hlang
          (osx64_subpaths ++ win64_subpaths) (fun tp => rfl) (by decide)
          [["codeql.exe"], ["swift", "qltest", "osx64"],
           ["swift", "resource-dir", "osx64"]] (linuxExclusionsEq languages)
    | WINDOWS =>
      cases q with
      | WINDOWS => exact absurd rfl hq
      | LINUX =>
        exact dropCore languages .WINDOWS root lang "linux64" hlang
          (osx64_subpaths ++ linux64_subpaths) (fun tp => rfl) (by decide)
          [["swift", "qltest"], ["swift", "resource-dir"]]
          (windowsExclusionsEq languages)
      | OSX =>
        exact dropCore languages .WINDOWS root lang "osx64" hlang
          (osx64_subpaths ++ linux64_subpaths) (fun tp => rfl) (by decide)
          [["swift", "qltest"], ["swift", "resource-dir"]]
          (windowsExclusionsEq languages)
    | OSX =>
      cases q with
      | OSX => exact absurd rfl hq
      | LINUX =>
        exact dropCore languages .OSX root lang "linux64" hlang
          (linux64_subpaths ++ win64_subpaths) (fun tp => rfl) (by decide)
          [["codeql.exe"], ["swift", "qltest", "linux64"],
           ["swift", "resource-dir", "linux64"]] (osxExclusionsEq languages)
      | WINDOWS =>
        exact dropCore languages .OSX root lang "win64" hlang
          (linux64_subpaths ++ win64_subpaths) (fun tp => rfl) (by decide)
          [["codeql.exe"], ["swift", "qltest", "linux64"],
           ["swift", "resource-dir", "linux64"]] (osxExclusionsEq languages)

/-- C8 witness: with detected language `java` and target platform Linux,
the filter keeps `codeql/java/tools/linux64` and drops
`codeql/java/tools/win64`. -/
theorem c8_platform_filter_witness :
    (("java" : String) ∈ (["java"] : List String) ∧
      BundlePlatform.WINDOWS ≠ BundlePlatform.LINUX ∧
      ("java" : String) ≠ "codeql.exe") ∧
    tar_filter ["java"] BundlePlatform.LINUX
      ["codeql", "java", "tools", "linux64"] =
      some ["codeql", "java", "tools", "linux64"] ∧
    tar_filter ["java"] BundlePlatform.LINUX
      ["codeql", "java", "tools", "win64"] = none :=
  ⟨⟨by decide, by decide, by decide⟩,
    (c8_platform_filter ["java"] BundlePlatform.LINUX BundlePlatform.WINDOWS
      "codeql" "java" [] (by decide) (by decide) (by decide)).2.2.1,
    (c8_platform_filter ["java"] BundlePlatform.LINUX BundlePlatform.WINDOWS
      "codeql" "java" [] (by decide) (by decide) (by decide)).2.2.2⟩

end CodeQLBundle
